import Mathlib

/-!
Verification of the LSB steganography codec of Omni-Con
(`src/omnicon_termux.py`: `_xor`, `hide_msg`, `reveal_msg`, and the
argument checks shared with `src/omni-con3.py`).

Bytes are modelled as natural numbers (< 256 where it matters), byte
strings as `List Nat`, images as raster-order lists of RGB pixels.
`hashlib.sha256` and `base64.b64encode/b64decode` are modelled in full,
so that every theorem can be evaluated on concrete inputs.
-/

namespace OmniCon

/-! ## Bits and bytes

`byteBits b` is the 8-character binary expansion `format(ord(c), '08b')`
used by `hide_msg`, most significant bit first. `byteVal` is its inverse
`int(''.join(byte), 2)` used by `reveal_msg`. -/

def byteBits (b : Nat) : List Bool :=
  [b / 128 % 2 = 1, b / 64 % 2 = 1, b / 32 % 2 = 1, b / 16 % 2 = 1,
   b / 8 % 2 = 1, b / 4 % 2 = 1, b / 2 % 2 = 1, b % 2 = 1]

def bytesBits (bs : List Nat) : List Bool :=
  (bs.map byteBits).flatten

def byteVal (bs : List Bool) : Nat :=
  bs.foldl (fun a b => 2 * a + (if b then 1 else 0)) 0

/-! ## SHA-256 (model of `hashlib.sha256(key.encode()).digest()`)

A complete executable SHA-256 over byte lists, FIPS 180-4: padding,
big-endian 32-bit words, 64-round compression. All word arithmetic is
`% 4294967296`. -/

def rotr (n w : Nat) : Nat :=
  (w / 2 ^ n + w % 2 ^ n * 2 ^ (32 - n)) % 4294967296

def shr (n w : Nat) : Nat := w / 2 ^ n

def wnot (w : Nat) : Nat := 4294967295 - w % 4294967296

def bigSigma0 (x : Nat) : Nat := rotr 2 x ^^^ rotr 13 x ^^^ rotr 22 x

def bigSigma1 (x : Nat) : Nat := rotr 6 x ^^^ rotr 11 x ^^^ rotr 25 x

def smallSigma0 (x : Nat) : Nat := rotr 7 x ^^^ rotr 18 x ^^^ shr 3 x

def smallSigma1 (x : Nat) : Nat := rotr 17 x ^^^ rotr 19 x ^^^ shr 10 x

def chFn (x y z : Nat) : Nat := x &&& y ^^^ wnot x &&& z

def majFn (x y z : Nat) : Nat := x &&& y ^^^ x &&& z ^^^ y &&& z

def sha256K : List Nat :=
  [1116352408, 1899447441, 3049323471, 3921009573, 961987163, 1508970993,
   2453635748, 2870763221, 3624381080, 310598401, 607225278, 1426881987,
   1925078388, 2162078206, 2614888103, 3248222580, 3835390401, 4022224774,
   264347078, 604807628, 770255983, 1249150122, 1555081692, 1996064986,
   2554220882, 2821834349, 2952996808, 3210313671, 3336571891, 3584528711,
   113926993, 338241895, 666307205, 773529912, 1294757372, 1396182291,
   1695183700, 1986661051, 2177026350, 2456956037, 2730485921, 2820302411,
   3259730800, 3345764771, 3516065817, 3600352804, 4094571909, 275423344,
   430227734, 506948616, 659060556, 883997877, 958139571, 1322822218,
   1537002063, 1747873779, 1955562222, 2024104815, 2227730452, 2361852424,
   2428436474, 2756734187, 3204031479, 3329325298]

structure Sha256State where
  a : Nat
  b : Nat
  c : Nat
  d : Nat
  e : Nat
  f : Nat
  g : Nat
  h : Nat
deriving Repr, DecidableEq

def sha256InitState : Sha256State :=
  ⟨1779033703, 3144134277, 1013904242, 2773480762,
   1359893119, 2600822924, 528734635, 1541459225⟩

def schedExtend : Nat → List Nat → List Nat
  | 0, ws => ws
  | n + 1, ws =>
      let i := ws.length
      let w := (smallSigma1 (ws.getD (i - 2) 0) + ws.getD (i - 7) 0 +
                smallSigma0 (ws.getD (i - 15) 0) + ws.getD (i - 16) 0) % 4294967296
      schedExtend n (ws ++ [w])

def sched (block16 : List Nat) : List Nat := schedExtend 48 block16

def sha256Round (k w : Nat) (s : Sha256State) : Sha256State :=
  let t1 := (s.h + bigSigma1 s.e + chFn s.e s.f s.g + k + w) % 4294967296
  let t2 := (bigSigma0 s.a + majFn s.a s.b s.c) % 4294967296
  ⟨(t1 + t2) % 4294967296, s.a, s.b, s.c, (s.d + t1) % 4294967296, s.e, s.f, s.g⟩

def sha256Rounds : List (Nat × Nat) → Sha256State → Sha256State
  | [], s => s
  | (k, w) :: rest, s => sha256Rounds rest (sha256Round k w s)

def sha256Compress (hs : Sha256State) (block16 : List Nat) : Sha256State :=
  let s := sha256Rounds (sha256K.zip (sched block16)) hs
  ⟨(hs.a + s.a) % 4294967296, (hs.b + s.b) % 4294967296,
   (hs.c + s.c) % 4294967296, (hs.d + s.d) % 4294967296,
   (hs.e + s.e) % 4294967296, (hs.f + s.f) % 4294967296,
   (hs.g + s.g) % 4294967296, (hs.h + s.h) % 4294967296⟩

def wordsOfBytes : List Nat → List Nat
  | b0 :: b1 :: b2 :: b3 :: rest =>
      (((b0 * 256 + b1) * 256 + b2) * 256 + b3) :: wordsOfBytes rest
  | _ => []

def chunk16 : List Nat → List (List Nat)
  | w0 :: w1 :: w2 :: w3 :: w4 :: w5 :: w6 :: w7 ::
    w8 :: w9 :: w10 :: w11 :: w12 :: w13 :: w14 :: w15 :: rest =>
      [w0, w1, w2, w3, w4, w5, w6, w7, w8, w9, w10, w11, w12, w13, w14, w15] :: chunk16 rest
  | _ => []

def lenBytes8 (n : Nat) : List Nat :=
  [n / 2 ^ 56 % 256, n / 2 ^ 48 % 256, n / 2 ^ 40 % 256, n / 2 ^ 32 % 256,
   n / 2 ^ 24 % 256, n / 2 ^ 16 % 256, n / 2 ^ 8 % 256, n % 256]

def sha256Pad (msg : List Nat) : List Nat :=
  msg ++ [128] ++ List.replicate ((119 - msg.length % 64) % 64) 0 ++ lenBytes8 (8 * msg.length)

def sha256Blocks : List (List Nat) → Sha256State → Sha256State
  | [], s => s
  | blk :: rest, s => sha256Blocks rest (sha256Compress s blk)

def wordBytes (w : Nat) : List Nat :=
  [w / 16777216 % 256, w / 65536 % 256, w / 256 % 256, w % 256]

def stateWords (s : Sha256State) : List Nat :=
  [s.a, s.b, s.c, s.d, s.e, s.f, s.g, s.h]

def sha256 (msg : List Nat) : List Nat :=
  ((stateWords (sha256Blocks (chunk16 (wordsOfBytes (sha256Pad msg))) sha256InitState)).map
    wordBytes).flatten

/-! ## XOR cipher (model of `_xor`)

`_xor(data, key)` derives `key_b = hashlib.sha256(key.encode()).digest()`
and returns `bytes(b ^ k for b, k in zip(data, itertools.cycle(key_b)))`.
`zip` with an empty cycle yields the empty string; otherwise byte `i`
of the output is `data[i] XOR key_b[i % len(key_b)]`. -/

def xorBytes (data keyB : List Nat) : List Nat :=
  if keyB.isEmpty then []
  else (List.range data.length).map fun i => data.getD i 0 ^^^ keyB.getD (i % keyB.length) 0

def xorCipher (data : List Nat) (pwd : List Nat) : List Nat :=
  xorBytes data (sha256 pwd)

/-! ## Base64 (model of `base64.b64encode` / `base64.b64decode`)

Standard alphabet, `=` (61) padding. Decoding models CPython's
non-validating `b64decode` applied to a `str`, as `reveal_msg` does:
the string is first ASCII-encoded, so any character code of 128 or
more raises ValueError; among ASCII characters, those outside the
alphabet and `=` are skipped, a quad ending in padding terminates
decoding (later characters are ignored, as CPython does), and a
leftover group of 1-3 characters is an error ("Incorrect padding"). -/

def b64Alphabet : List Nat :=
  [65, 66, 67, 68, 69, 70, 71, 72, 73, 74, 75, 76, 77, 78, 79, 80, 81, 82, 83, 84, 85, 86, 87,
   88, 89, 90, 97, 98, 99, 100, 101, 102, 103, 104, 105, 106, 107, 108, 109, 110, 111, 112, 113,
   114, 115, 116, 117, 118, 119, 120, 121, 122, 48, 49, 50, 51, 52, 53, 54, 55, 56, 57, 43, 47]

def encChar (v : Nat) : Nat := b64Alphabet.getD v 0

def decChar (c : Nat) : Option Nat :=
  (List.range 64).find? (fun v => b64Alphabet.getD v 0 = c)

def isB64Char (c : Nat) : Bool := (decChar c).isSome

def b64encode : List Nat → List Nat
  | b0 :: b1 :: b2 :: rest =>
      encChar (b0 / 4) :: encChar (b0 % 4 * 16 + b1 / 16) ::
        encChar (b1 % 16 * 4 + b2 / 64) :: encChar (b2 % 64) :: b64encode rest
  | [b0, b1] => [encChar (b0 / 4), encChar (b0 % 4 * 16 + b1 / 16), encChar (b1 % 16 * 4), 61]
  | [b0] => [encChar (b0 / 4), encChar (b0 % 4 * 16), 61, 61]
  | [] => []

def b64decodeQuads : List Nat → Option (List Nat)
  | [] => some []
  | a :: b :: c :: d :: rest =>
      (decChar a).bind fun va =>
        (decChar b).bind fun vb =>
          if c = 61 then
            if d = 61 then some [va * 4 + vb / 16] else none
          else
            (decChar c).bind fun vc =>
              if d = 61 then some [va * 4 + vb / 16, vb % 16 * 16 + vc / 4]
              else
                (decChar d).bind fun vd =>
                  (b64decodeQuads rest).map
                    (fun t => (va * 4 + vb / 16) :: (vb % 16 * 16 + vc / 4) ::
                                (vc % 4 * 64 + vd) :: t)
  | _ => none

def b64decode (cs : List Nat) : Option (List Nat) :=
  if cs.any (fun c => 128 ≤ c) then none
  else b64decodeQuads (cs.filter (fun c => isB64Char c || c == 61))

/-! ## UTF-8 validity (model of `bytes.decode()` succeeding)

`reveal_msg` ends with `.decode()`, which raises on byte strings that
are not well-formed UTF-8 (RFC 3629: no surrogates, no overlong forms,
maximum U+10FFFF). The recovered value is modelled as the byte string
itself; `utf8Valid` captures whether the final decode step succeeds. -/

def utf8Cont (b : Nat) : Bool := 128 ≤ b && b ≤ 191

def utf8Valid : List Nat → Bool
  | [] => true
  | b0 :: rest =>
      if b0 < 128 then utf8Valid rest
      else if 194 ≤ b0 && b0 ≤ 223 then
        match rest with
        | b1 :: rest' => utf8Cont b1 && utf8Valid rest'
        | [] => false
      else if b0 == 224 then
        match rest with
        | b1 :: b2 :: rest' => (160 ≤ b1 && b1 ≤ 191) && utf8Cont b2 && utf8Valid rest'
        | _ => false
      else if (225 ≤ b0 && b0 ≤ 236) || b0 == 238 || b0 == 239 then
        match rest with
        | b1 :: b2 :: rest' => utf8Cont b1 && utf8Cont b2 && utf8Valid rest'
        | _ => false
      else if b0 == 237 then
        match rest with
        | b1 :: b2 :: rest' => (128 ≤ b1 && b1 ≤ 159) && utf8Cont b2 && utf8Valid rest'
        | _ => false
      else if b0 == 240 then
        match rest with
        | b1 :: b2 :: b3 :: rest' =>
            (144 ≤ b1 && b1 ≤ 191) && utf8Cont b2 && utf8Cont b3 && utf8Valid rest'
        | _ => false
      else if 241 ≤ b0 && b0 ≤ 243 then
        match rest with
        | b1 :: b2 :: b3 :: rest' => utf8Cont b1 && utf8Cont b2 && utf8Cont b3 && utf8Valid rest'
        | _ => false
      else if b0 == 244 then
        match rest with
        | b1 :: b2 :: b3 :: rest' =>
            (128 ≤ b1 && b1 ≤ 143) && utf8Cont b2 && utf8Cont b3 && utf8Valid rest'
        | _ => false
      else false

/-! ## Images

An image is its size plus the raster-order pixel list (`y` outer, `x`
inner — exactly the order of the nested loops in `hide_msg` and
`reveal_msg`). Channels are bytes. -/

structure Pixel where
  r : Nat
  g : Nat
  b : Nat
deriving Repr, DecidableEq

structure Img where
  width : Nat
  height : Nat
  pixels : List Pixel
deriving Repr, DecidableEq

def pixelLSBs (p : Pixel) : List Bool := [p.r % 2 = 1, p.g % 2 = 1, p.b % 2 = 1]

def flatLSBs (px : List Pixel) : List Bool := (px.map pixelLSBs).flatten

def IMAGE_EXTS : List String := ["png", "jpg", "jpeg", "bmp", "webp"]

inductive StegoError where
  | sourceNotImage
  | emptyMessage
  | emptyPassword
  | messageTooLarge
  | decryptionFailed
deriving Repr, DecidableEq

/-! ## Embedding (model of `hide_msg`)

`r = (r & ~1) | int(bits[bit_idx])` clears the least-significant bit of
the channel and writes the next message bit into it; `~1` is the Python
infinite-width mask `-2`, so on a byte it is `2 * (c / 2) + bit`. The
pixel loop consumes up to three bits per pixel and leaves every channel
after the bitstream untouched. -/

def setLSB (c : Nat) (bit : Bool) : Nat := 2 * (c / 2) + (if bit then 1 else 0)

def embedChannel (bits : List Bool) (idx : Nat) (c : Nat) : Nat × Nat :=
  if idx < bits.length then (setLSB c (bits.getD idx false), idx + 1) else (c, idx)

def embedPixel (bits : List Bool) (idx : Nat) (p : Pixel) : Pixel × Nat :=
  let rc := embedChannel bits idx p.r
  let gc := embedChannel bits rc.2 p.g
  let bc := embedChannel bits gc.2 p.b
  (⟨rc.1, gc.1, bc.1⟩, bc.2)

def embedPixels (bits : List Bool) : Nat → List Pixel → List Pixel
  | _, [] => []
  | idx, p :: ps =>
      let pi := embedPixel bits idx p
      pi.1 :: embedPixels bits pi.2 ps

/-- The framed bitstream of `hide_msg`: the 8-bit codes of the base64
ciphertext characters, most significant bit first, followed by one
all-zero sentinel byte (`cipher + '\0'`). -/
def msgBitstream (cipher : List Nat) : List Bool := bytesBits (cipher ++ [0])

/-- Result of a successful `hide_msg`: the stego image, the extension of
the path actually written, and the image format passed to `img.save`. -/
structure SavedImage where
  img : Img
  ext : String
  format : String
deriving Repr, DecidableEq

/-- Model of `hide_msg(img_in, img_out, msg, pwd)` from
`src/omnicon_termux.py` lines 153-200. `inExt`/`outExt` are the
lower-cased dotless suffixes of the two paths; `msg` and `pwd` are the
UTF-8 bytes of the two strings; `img` is the RGB-converted source image.
Checks happen in source order: source extension, empty message, empty
password, output-extension normalisation, capacity, then the LSB
embedding loop; the result is always saved with `format="PNG"`. -/
def hide_msg (inExt outExt : String) (msg pwd : List Nat) (img : Img) :
    Except StegoError SavedImage :=
  if ¬ inExt ∈ IMAGE_EXTS then .error .sourceNotImage
  else if msg = [] then .error .emptyMessage
  else if pwd = [] then .error .emptyPassword
  else
    let outExt' := if outExt ∈ IMAGE_EXTS then outExt else "png"
    let cipher := b64encode (xorCipher msg pwd)
    let bits := msgBitstream cipher
    if bits.length > img.width * img.height * 3 then .error .messageTooLarge
    else .ok ⟨⟨img.width, img.height, embedPixels bits 0 img.pixels⟩, outExt', "PNG"⟩

/-! ## Extraction (model of `reveal_msg`)

After appending the three LSBs of each pixel, the code checks
`len(bits) >= 8 and ''.join(bits[-8:]) == '00000000'`; on a hit it drops
the last 8 bits and stops. The surviving bits are parsed in full 8-bit
chunks (an incomplete trailing chunk is discarded), base64-decoded,
XOR-decrypted and UTF-8-decoded; any failure in the last three steps is
reported as "Decryption failed". -/

def lastEightZero (bs : List Bool) : Bool :=
  (bs.drop (bs.length - 8)).all (fun b => b == false)

def revealScan : List Pixel → List Bool → List Bool
  | [], acc => acc
  | p :: ps, acc =>
      let acc' := acc ++ pixelLSBs p
      if 8 ≤ acc'.length ∧ lastEightZero acc' = true then acc'.take (acc'.length - 8)
      else revealScan ps acc'

def bitsToChars : List Bool → List Nat
  | b0 :: b1 :: b2 :: b3 :: b4 :: b5 :: b6 :: b7 :: rest =>
      byteVal [b0, b1, b2, b3, b4, b5, b6, b7] :: bitsToChars rest
  | _ => []

/-- Decoding tail of `reveal_msg` (lines 237-240): base64-decode the
collected ciphertext characters, XOR with the passphrase keystream,
UTF-8-decode; every failure becomes the "Decryption failed" error. -/
def revealDecode (cipher : List Nat) (pwd : List Nat) : Except StegoError (List Nat) :=
  match b64decode cipher with
  | none => .error .decryptionFailed
  | some data =>
      let plain := xorCipher data pwd
      if utf8Valid plain then .ok plain else .error .decryptionFailed

/-- Model of `reveal_msg(img, pwd)` from `src/omnicon_termux.py` lines
202-240, returning the UTF-8 bytes of the revealed string. -/
def reveal_msg (ext : String) (pwd : List Nat) (img : Img) : Except StegoError (List Nat) :=
  if ¬ ext ∈ IMAGE_EXTS then .error .sourceNotImage
  else if pwd = [] then .error .emptyPassword
  else revealDecode (bitsToChars (revealScan img.pixels [])) pwd

/-- Modelled from the spec: the extractor described by the specification
("after every 8 collected bits, interpret as one character code; if the
code is zero (sentinel), stop and return all characters collected so
far, excluding the sentinel"): it parses the LSB stream on 8-bit
boundaries and keeps the characters strictly before the first all-zero
byte. Used only to compare the code extractor against the spec's words. -/
def specExtractChars (bits : List Bool) : List Nat :=
  (bitsToChars bits).takeWhile (fun c => c ≠ 0)

/-! ## Facts about bits and bytes -/

theorem byteBits_length (b : Nat) : (byteBits b).length = 8 := rfl

theorem bytesBits_nil : bytesBits [] = [] := rfl

theorem bytesBits_cons (b : Nat) (bs : List Nat) :
    bytesBits (b :: bs) = byteBits b ++ bytesBits bs := rfl

theorem bytesBits_append (xs ys : List Nat) :
    bytesBits (xs ++ ys) = bytesBits xs ++ bytesBits ys := by
  simp [bytesBits]

theorem bytesBits_length (bs : List Nat) : (bytesBits bs).length = 8 * bs.length := by
  induction bs with
  | nil => rfl
  | cons b bs ih =>
      rw [bytesBits_cons, List.length_append, byteBits_length, ih, List.length_cons]
      omega

theorem bytesBits_getD (bs : List Nat) (q j : Nat) (hj : j < 8) (hq : q < bs.length) :
    (bytesBits bs).getD (8 * q + j) false = (byteBits (bs.getD q 0)).getD j false := by
  induction bs generalizing q with
  | nil => simp at hq
  | cons b bs ih =>
      cases q with
      | zero =>
          rw [bytesBits_cons]
          simp only [Nat.mul_zero, Nat.zero_add, List.getD_cons_zero]
          exact List.getD_append _ _ _ _ (by rw [byteBits_length]; exact hj)
      | succ q' =>
          rw [bytesBits_cons]
          have h8 : 8 * (q' + 1) + j = (byteBits b).length + (8 * q' + j) := by
            rw [byteBits_length]; omega
          rw [h8, List.getD_append_right _ _ _ _ (by omega), Nat.add_sub_cancel_left,
            List.getD_cons_succ]
          exact ih q' (by simpa using hq)

set_option maxRecDepth 4096 in
theorem byteVal_byteBits : ∀ b < 256, byteVal (byteBits b) = b := by decide

theorem bitsToChars_byteBits_append (b : Nat) (rest : List Bool) :
    bitsToChars (byteBits b ++ rest) = byteVal (byteBits b) :: bitsToChars rest := rfl

theorem bitsToChars_short : ∀ (tail : List Bool), tail.length < 8 → bitsToChars tail = []
  | [], _ => rfl
  | [_], _ => rfl
  | [_, _], _ => rfl
  | [_, _, _], _ => rfl
  | [_, _, _, _], _ => rfl
  | [_, _, _, _, _], _ => rfl
  | [_, _, _, _, _, _], _ => rfl
  | [_, _, _, _, _, _, _], _ => rfl
  | _ :: _ :: _ :: _ :: _ :: _ :: _ :: _ :: _, hlt => by simp at hlt; omega

theorem bitsToChars_bytesBits (bs : List Nat) (tail : List Bool) (hb : ∀ b ∈ bs, b < 256)
    (ht : tail.length < 8) : bitsToChars (bytesBits bs ++ tail) = bs := by
  induction bs with
  | nil => rw [bytesBits_nil, List.nil_append]; exact bitsToChars_short tail ht
  | cons b bs ih =>
      rw [bytesBits_cons, List.append_assoc, bitsToChars_byteBits_append,
        byteVal_byteBits b (hb b (by simp)), ih (fun x hx => hb x (by simp [hx]))]

/-! ## Facts about the SHA-256 digest -/

theorem sha256_length (k : List Nat) : (sha256 k).length = 32 := rfl

theorem sha256_ne_nil (k : List Nat) : sha256 k ≠ [] := by
  intro h
  have := sha256_length k
  rw [h] at this
  simp at this

theorem sha256_byte_lt (k : List Nat) : ∀ b ∈ sha256 k, b < 256 := by
  intro b hb
  simp only [sha256, List.mem_flatten, List.mem_map] at hb
  obtain ⟨l, ⟨w, _, rfl⟩, hbl⟩ := hb
  simp only [wordBytes, List.mem_cons, List.not_mem_nil, or_false] at hbl
  rcases hbl with rfl | rfl | rfl | rfl <;> exact Nat.mod_lt _ (by norm_num)

/-! ## Facts about the XOR cipher -/

theorem xorBytes_length (data kb : List Nat) (h : kb ≠ []) :
    (xorBytes data kb).length = data.length := by
  simp [xorBytes, h]

theorem xorBytes_getD (data kb : List Nat) (h : kb ≠ []) (i : Nat) (hi : i < data.length) :
    (xorBytes data kb).getD i 0 = data.getD i 0 ^^^ kb.getD (i % kb.length) 0 := by
  have hne : kb.isEmpty = false := by simp [h]
  rw [xorBytes, hne]
  simp only [Bool.false_eq_true, if_false]
  rw [List.getD_eq_getElem _ _ (by simpa using hi)]
  simp

theorem xorCipher_length (data pwd : List Nat) :
    (xorCipher data pwd).length = data.length :=
  xorBytes_length data _ (sha256_ne_nil pwd)

theorem xorCipher_getD (data pwd : List Nat) (i : Nat) (hi : i < data.length) :
    (xorCipher data pwd).getD i 0 =
      data.getD i 0 ^^^ (sha256 pwd).getD (i % 32) 0 := by
  rw [xorCipher, xorBytes_getD data _ (sha256_ne_nil pwd) i hi, sha256_length]

/-- Claim C7's core identity: `_xor` is self-inverse. -/
theorem xorCipher_xorCipher (data pwd : List Nat) :
    xorCipher (xorCipher data pwd) pwd = data := by
  apply List.ext_getElem
  · rw [xorCipher_length, xorCipher_length]
  · intro i h1 h2
    rw [← List.getD_eq_getElem (xorCipher (xorCipher data pwd) pwd) 0 h1,
      ← List.getD_eq_getElem data 0 h2]
    rw [xorCipher_getD _ pwd i (by rwa [xorCipher_length]),
      xorCipher_getD data pwd i h2]
    rw [Nat.xor_assoc, Nat.xor_self, Nat.xor_zero]

theorem xorCipher_byte_lt (data pwd : List Nat) (h : ∀ b ∈ data, b < 256) :
    ∀ b ∈ xorCipher data pwd, b < 256 := by
  intro b hb
  have hne : (sha256 pwd).isEmpty = false := by simp [sha256_ne_nil pwd]
  rw [xorCipher, xorBytes, hne] at hb
  simp only [Bool.false_eq_true, if_false, List.mem_map, List.mem_range] at hb
  obtain ⟨i, hi, rfl⟩ := hb
  have h1 : data.getD i 0 < 256 := by
    rw [List.getD_eq_getElem data 0 hi]
    exact h _ (List.getElem_mem hi)
  have h2 : (sha256 pwd).getD (i % (sha256 pwd).length) 0 < 256 := by
    have hlen : i % (sha256 pwd).length < (sha256 pwd).length := by
      rw [sha256_length]; omega
    rw [List.getD_eq_getElem _ 0 hlen]
    exact sha256_byte_lt pwd _ (List.getElem_mem hlen)
  calc data.getD i 0 ^^^ (sha256 pwd).getD (i % (sha256 pwd).length) 0
      < 2 ^ 8 := Nat.xor_lt_two_pow (by omega) (by omega)
    _ = 256 := by norm_num

/-! ## Facts about base64 -/

set_option maxRecDepth 8192 in
theorem decChar_encChar : ∀ v < 64, decChar (encChar v) = some v := by decide

theorem encChar_lt : ∀ v < 64, encChar v < 256 := by decide

theorem encChar_lt128 : ∀ v < 64, encChar v < 128 := by decide

theorem encChar_ne61 : ∀ v < 64, encChar v ≠ 61 := by decide

set_option maxRecDepth 8192 in
theorem isB64Char_encChar : ∀ v < 64, isB64Char (encChar v) = true := by decide

/-- Shape of the bytes produced by `b64encode` (alphabet characters and
the padding character 61): at least 43, below 256, and never divisible
by 32. The last two bounds limit leading and trailing zero runs in the
embedded bitstream: a base64 character contributes at most 2 leading and
at most 4 trailing zero bits. -/
def goodB64Byte (b : Nat) : Prop := 43 ≤ b ∧ b < 256 ∧ b % 32 ≠ 0

instance goodB64Byte.decPred : DecidablePred goodB64Byte := fun b =>
  decidable_of_iff (43 ≤ b ∧ b < 256 ∧ b % 32 ≠ 0) Iff.rfl

theorem goodB64Byte_encChar : ∀ v < 64, goodB64Byte (encChar v) := by decide

theorem goodB64Byte_61 : goodB64Byte 61 := by decide

theorem b64encode_mem : ∀ (data : List Nat), (∀ b ∈ data, b < 256) →
    ∀ c ∈ b64encode data, (∃ v, v < 64 ∧ c = encChar v) ∨ c = 61
  | [] => by intro _ c hc; simp [b64encode] at hc
  | [b0] => by
      intro h c hc
      have hb0 : b0 < 256 := h b0 (by simp)
      simp only [b64encode, List.mem_cons, List.not_mem_nil, or_false] at hc
      rcases hc with rfl | rfl | rfl | rfl
      · exact Or.inl ⟨b0 / 4, by omega, rfl⟩
      · exact Or.inl ⟨b0 % 4 * 16, by omega, rfl⟩
      · exact Or.inr rfl
      · exact Or.inr rfl
  | [b0, b1] => by
      intro h c hc
      have hb0 : b0 < 256 := h b0 (by simp)
      have hb1 : b1 < 256 := h b1 (by simp)
      simp only [b64encode, List.mem_cons, List.not_mem_nil, or_false] at hc
      rcases hc with rfl | rfl | rfl | rfl
      · exact Or.inl ⟨b0 / 4, by omega, rfl⟩
      · exact Or.inl ⟨b0 % 4 * 16 + b1 / 16, by omega, rfl⟩
      · exact Or.inl ⟨b1 % 16 * 4, by omega, rfl⟩
      · exact Or.inr rfl
  | b0 :: b1 :: b2 :: rest => by
      intro h c hc
      have hb0 : b0 < 256 := h b0 (by simp)
      have hb1 : b1 < 256 := h b1 (by simp)
      have hb2 : b2 < 256 := h b2 (by simp)
      simp only [b64encode, List.mem_cons] at hc
      rcases hc with rfl | rfl | rfl | rfl | hc
      · exact Or.inl ⟨b0 / 4, by omega, rfl⟩
      · exact Or.inl ⟨b0 % 4 * 16 + b1 / 16, by omega, rfl⟩
      · exact Or.inl ⟨b1 % 16 * 4 + b2 / 64, by omega, rfl⟩
      · exact Or.inl ⟨b2 % 64, by omega, rfl⟩
      · exact b64encode_mem rest (fun x hx => h x (by simp [hx])) c hc

theorem b64encode_good (data : List Nat) (h : ∀ b ∈ data, b < 256) :
    ∀ c ∈ b64encode data, goodB64Byte c := by
  intro c hc
  rcases b64encode_mem data h c hc with ⟨v, hv, rfl⟩ | rfl
  · exact goodB64Byte_encChar v hv
  · exact goodB64Byte_61

theorem b64encode_lt (data : List Nat) (h : ∀ b ∈ data, b < 256) :
    ∀ c ∈ b64encode data, c < 256 := by
  intro c hc
  exact (b64encode_good data h c hc).2.1

theorem b64encode_lt128 (data : List Nat) (h : ∀ b ∈ data, b < 256) :
    ∀ c ∈ b64encode data, c < 128 := by
  intro c hc
  rcases b64encode_mem data h c hc with ⟨v, hv, rfl⟩ | rfl
  · exact encChar_lt128 v hv
  · norm_num

theorem b64encode_filter (data : List Nat) (h : ∀ b ∈ data, b < 256) :
    (b64encode data).filter (fun c => isB64Char c || c == 61) = b64encode data := by
  rw [List.filter_eq_self]
  intro c hc
  rcases b64encode_mem data h c hc with ⟨v, hv, rfl⟩ | rfl
  · simp [isB64Char_encChar v hv]
  · simp

theorem b64encode_ne_nil : ∀ (data : List Nat), data ≠ [] → b64encode data ≠ []
  | [], h => absurd rfl h
  | [_], _ => by simp [b64encode]
  | [_, _], _ => by simp [b64encode]
  | _ :: _ :: _ :: _, _ => by simp [b64encode]

theorem b64decodeQuads_encode : ∀ (data : List Nat), (∀ b ∈ data, b < 256) →
    b64decodeQuads (b64encode data) = some data
  | [] => fun _ => rfl
  | [b0] => by
      intro h
      have hb0 : b0 < 256 := h b0 (by simp)
      have h1 : b0 / 4 < 64 := by omega
      have h2 : b0 % 4 * 16 < 64 := by omega
      show b64decodeQuads [encChar (b0 / 4), encChar (b0 % 4 * 16), 61, 61] = some [b0]
      simp only [b64decodeQuads, decChar_encChar _ h1, decChar_encChar _ h2,
        Option.some_bind, if_true, Option.some.injEq, List.cons.injEq, and_true]
      omega
  | [b0, b1] => by
      intro h
      have hb0 : b0 < 256 := h b0 (by simp)
      have hb1 : b1 < 256 := h b1 (by simp)
      have h1 : b0 / 4 < 64 := by omega
      have h2 : b0 % 4 * 16 + b1 / 16 < 64 := by omega
      have h3 : b1 % 16 * 4 < 64 := by omega
      show b64decodeQuads
        [encChar (b0 / 4), encChar (b0 % 4 * 16 + b1 / 16), encChar (b1 % 16 * 4), 61] =
          some [b0, b1]
      simp only [b64decodeQuads, decChar_encChar _ h1, decChar_encChar _ h2,
        Option.some_bind, if_neg (encChar_ne61 _ h3), decChar_encChar _ h3, if_true,
        Option.some.injEq, List.cons.injEq, and_true]
      omega
  | b0 :: b1 :: b2 :: rest => by
      intro h
      have hb0 : b0 < 256 := h b0 (by simp)
      have hb1 : b1 < 256 := h b1 (by simp)
      have hb2 : b2 < 256 := h b2 (by simp)
      have h1 : b0 / 4 < 64 := by omega
      have h2 : b0 % 4 * 16 + b1 / 16 < 64 := by omega
      have h3 : b1 % 16 * 4 + b2 / 64 < 64 := by omega
      have h4 : b2 % 64 < 64 := by omega
      have ih := b64decodeQuads_encode rest (fun x hx => h x (by simp [hx]))
      show b64decodeQuads
        (encChar (b0 / 4) :: encChar (b0 % 4 * 16 + b1 / 16) ::
          encChar (b1 % 16 * 4 + b2 / 64) :: encChar (b2 % 64) :: b64encode rest) =
          some (b0 :: b1 :: b2 :: rest)
      simp only [b64decodeQuads, decChar_encChar _ h1, decChar_encChar _ h2,
        Option.some_bind, if_neg (encChar_ne61 _ h3), decChar_encChar _ h3,
        if_neg (encChar_ne61 _ h4), decChar_encChar _ h4, ih,
        Option.map_some', Option.some.injEq, List.cons.injEq]
      refine ⟨by omega, by omega, by omega, trivial⟩

theorem b64decode_b64encode (data : List Nat) (h : ∀ b ∈ data, b < 256) :
    b64decode (b64encode data) = some data := by
  have hascii : (b64encode data).any (fun c => 128 ≤ c) = false := by
    rw [List.any_eq_false]
    intro c hc
    have := b64encode_lt128 data h c hc
    simp
    omega
  rw [b64decode, hascii, if_neg (by simp), b64encode_filter data h,
    b64decodeQuads_encode data h]

/-! ## Facts about the embedding loop -/

def flatChannels (px : List Pixel) : List Nat :=
  (px.map (fun p => [p.r, p.g, p.b])).flatten

/-- Overwrite the least-significant bits of a channel list with a bit
list, element by element, leaving the channels beyond the bit list
untouched: the net effect of the embedding loop on the flattened
channel sequence. -/
def setLSBs : List Bool → List Nat → List Nat
  | [], cs => cs
  | _, [] => []
  | bit :: bs, c :: cs => setLSB c bit :: setLSBs bs cs

theorem flatChannels_cons (p : Pixel) (ps : List Pixel) :
    flatChannels (p :: ps) = p.r :: p.g :: p.b :: flatChannels ps := rfl

theorem flatChannels_length (ps : List Pixel) : (flatChannels ps).length = 3 * ps.length := by
  induction ps with
  | nil => rfl
  | cons p ps ih => rw [flatChannels_cons]; simp [ih]; omega

theorem flatLSBs_cons (p : Pixel) (ps : List Pixel) :
    flatLSBs (p :: ps) = pixelLSBs p ++ flatLSBs ps := rfl

theorem flatLSBs_length (ps : List Pixel) : (flatLSBs ps).length = 3 * ps.length := by
  induction ps with
  | nil => rfl
  | cons p ps ih => rw [flatLSBs_cons]; simp [pixelLSBs, ih]; omega

theorem flatLSBs_eq_map (ps : List Pixel) :
    flatLSBs ps = (flatChannels ps).map (fun c => decide (c % 2 = 1)) := by
  induction ps with
  | nil => rfl
  | cons p ps ih => rw [flatLSBs_cons, flatChannels_cons, ih]; rfl

theorem setLSBs_length : ∀ (bs : List Bool) (cs : List Nat),
    (setLSBs bs cs).length = cs.length
  | [], cs => by cases cs <;> rfl
  | _ :: _, [] => rfl
  | _ :: bs, _ :: cs => by rw [setLSBs]; simp [setLSBs_length bs cs]

theorem lsb_setLSB (c : Nat) (bit : Bool) : decide (setLSB c bit % 2 = 1) = bit := by
  cases bit <;> simp [setLSB] <;> omega

theorem map_lsb_setLSBs : ∀ (bs : List Bool) (cs : List Nat),
    (setLSBs bs cs).map (fun c => decide (c % 2 = 1)) =
      bs.take cs.length ++ ((cs.map (fun c => decide (c % 2 = 1))).drop bs.length)
  | [], cs => by simp [setLSBs]
  | _ :: _, [] => by simp [setLSBs]
  | bit :: bs, c :: cs => by
      rw [setLSBs]
      simp only [List.map_cons, List.length_cons, List.take_succ_cons, List.drop_succ_cons,
        List.cons_append, lsb_setLSB]
      rw [map_lsb_setLSBs bs cs]

theorem setLSBs_getD : ∀ (bs : List Bool) (cs : List Nat) (i : Nat),
    (setLSBs bs cs).getD i 0 =
      if i < bs.length ∧ i < cs.length then setLSB (cs.getD i 0) (bs.getD i false)
      else cs.getD i 0
  | [], cs, i => by simp [setLSBs]
  | _ :: _, [], i => by simp [setLSBs]
  | bit :: bs, c :: cs, 0 => by simp [setLSBs]
  | bit :: bs, c :: cs, i + 1 => by
      rw [setLSBs]
      simp only [List.getD_cons_succ, List.length_cons]
      rw [setLSBs_getD bs cs i]
      by_cases h : i < bs.length ∧ i < cs.length
      · rw [if_pos h, if_pos (by omega)]
      · rw [if_neg h, if_neg (by omega)]

theorem getD_drop (l : List Bool) (n m : Nat) : (l.drop n).getD m false = l.getD (n + m) false := by
  simp [List.getD_eq_getElem?_getD, List.getElem?_drop]

theorem embedPixels_length (bits : List Bool) : ∀ (idx : Nat) (px : List Pixel),
    (embedPixels bits idx px).length = px.length
  | _, [] => rfl
  | idx, p :: ps => by
      rw [embedPixels]
      simp [embedPixels_length bits _ ps]

theorem embed_flatChannels (bits : List Bool) : ∀ (px : List Pixel) (idx : Nat),
    flatChannels (embedPixels bits idx px) =
      setLSBs ((bits.drop idx).take (3 * px.length)) (flatChannels px)
  | [], idx => by simp [embedPixels, flatChannels, setLSBs]
  | p :: ps, idx => by
      have hlen : (bits.drop idx).length = bits.length - idx := by simp
      have hd0 : (bits.drop idx).getD 0 false = bits.getD idx false := by
        rw [getD_drop, Nat.add_zero]
      have hd1 : (bits.drop idx).getD 1 false = bits.getD (idx + 1) false := by
        rw [getD_drop]
      have hd2 : (bits.drop idx).getD 2 false = bits.getD (idx + 2) false := by
        rw [getD_drop]
      have htail : ∀ k, (bits.drop idx).drop k = bits.drop (idx + k) := by
        intro k; rw [List.drop_drop]
      rcases hR : bits.drop idx with _ | ⟨b1, R1⟩
      · have hge : bits.length ≤ idx := by
          have := congrArg List.length hR; simp at this; omega
        rw [embedPixels]
        have e1 : embedPixel bits idx p = (p, idx) := by
          simp [embedPixel, embedChannel, if_neg (show ¬ idx < bits.length by omega)]
        rw [e1]
        rw [flatChannels_cons, flatChannels_cons, embed_flatChannels bits ps idx, hR]
        simp [setLSBs, hR]
      · rcases hR1 : R1 with _ | ⟨b2, R2⟩
        · -- exactly one bit left
          have hlen1 : bits.length = idx + 1 := by
            have := congrArg List.length hR; rw [hR1] at this; simp at this; omega
          rw [embedPixels]
          have e1 : embedPixel bits idx p = (⟨setLSB p.r (bits.getD idx false), p.g, p.b⟩, idx + 1) := by
            simp [embedPixel, embedChannel, if_pos (show idx < bits.length by omega),
              if_neg (show ¬ idx + 1 < bits.length by omega)]
          rw [e1]
          rw [flatChannels_cons, flatChannels_cons, embed_flatChannels bits ps (idx + 1)]
          have hdr : bits.drop (idx + 1) = [] := by
            have h' := htail 1; rw [hR, hR1] at h'; exact h'.symm
          have hb1 : b1 = bits.getD idx false := by rw [← hd0, hR, hR1]; rfl
          rw [hdr]
          rw [List.take_of_length_le (show ([b1] : List Bool).length ≤ 3 * (p :: ps).length by
            simp; omega)]
          simp [setLSBs, hb1]
        · rcases hR2 : R2 with _ | ⟨b3, R3⟩
          · -- exactly two bits left
            have hlen2 : bits.length = idx + 2 := by
              have := congrArg List.length hR; rw [hR1, hR2] at this; simp at this; omega
            rw [embedPixels]
            have e1 : embedPixel bits idx p =
                (⟨setLSB p.r (bits.getD idx false), setLSB p.g (bits.getD (idx + 1) false), p.b⟩,
                  idx + 2) := by
              simp [embedPixel, embedChannel, if_pos (show idx < bits.length by omega),
                if_pos (show idx + 1 < bits.length by omega),
                if_neg (show ¬ idx + 2 < bits.length by omega)]
            rw [e1]
            rw [flatChannels_cons, flatChannels_cons, embed_flatChannels bits ps (idx + 2)]
            have hdr : bits.drop (idx + 2) = [] := by
              have h' := htail 2; rw [hR, hR1, hR2] at h'; exact h'.symm
            have hb1 : b1 = bits.getD idx false := by rw [← hd0, hR, hR1, hR2]; rfl
            have hb2 : b2 = bits.getD (idx + 1) false := by rw [← hd1, hR, hR1, hR2]; rfl
            rw [hdr]
            rw [List.take_of_length_le (show ([b1, b2] : List Bool).length ≤ 3 * (p :: ps).length
              by simp; omega)]
            simp [setLSBs, hb1, hb2]
          · -- at least three bits left
            have hlen3 : idx + 3 ≤ bits.length := by
              have := congrArg List.length hR; rw [hR1, hR2] at this; simp at this; omega
            rw [embedPixels]
            have e1 : embedPixel bits idx p =
                (⟨setLSB p.r (bits.getD idx false), setLSB p.g (bits.getD (idx + 1) false),
                    setLSB p.b (bits.getD (idx + 2) false)⟩, idx + 3) := by
              simp [embedPixel, embedChannel, if_pos (show idx < bits.length by omega),
                if_pos (show idx + 1 < bits.length by omega),
                if_pos (show idx + 2 < bits.length by omega)]
            rw [e1]
            rw [flatChannels_cons, flatChannels_cons, embed_flatChannels bits ps (idx + 3)]
            have hdr : bits.drop (idx + 3) = R3 := by
              have h' := htail 3; rw [hR, hR1, hR2] at h'; exact h'.symm
            have hb1 : b1 = bits.getD idx false := by rw [← hd0, hR, hR1, hR2]; rfl
            have hb2 : b2 = bits.getD (idx + 1) false := by rw [← hd1, hR, hR1, hR2]; rfl
            have hb3 : b3 = bits.getD (idx + 2) false := by rw [← hd2, hR, hR1, hR2]; rfl
            rw [hdr]
            have h3succ : 3 * ((p :: ps).length) = 3 * ps.length + 1 + 1 + 1 := by
              simp; omega
            rw [h3succ]
            simp only [List.take_succ_cons, setLSBs]
            rw [hb1, hb2, hb3]

theorem flatLSBs_embedPixels (bits : List Bool) (px : List Pixel)
    (hle : bits.length ≤ 3 * px.length) :
    flatLSBs (embedPixels bits 0 px) = bits ++ (flatLSBs px).drop bits.length := by
  have h1 : bits.take (3 * px.length) = bits := List.take_of_length_le hle
  rw [flatLSBs_eq_map, embed_flatChannels bits px 0, List.drop_zero, map_lsb_setLSBs, h1,
    flatChannels_length, h1, flatLSBs_eq_map]

/-! ## Facts about the extraction scan -/

/-- The stopping condition of the extraction loop of `reveal_msg`: at
least 8 bits collected and the last 8 collected bits all zero. -/
def trig (bs : List Bool) : Prop := 8 ≤ bs.length ∧ lastEightZero bs = true

instance trig.decPred : DecidablePred trig := fun bs =>
  decidable_of_iff (8 ≤ bs.length ∧ lastEightZero bs = true) Iff.rfl

theorem flatLSBs_single (p : Pixel) : flatLSBs [p] = pixelLSBs p := by
  simp [flatLSBs]

theorem revealScan_no_trigger : ∀ (ps : List Pixel) (acc : List Bool),
    (∀ k, k < ps.length → ¬ trig (acc ++ flatLSBs (ps.take (k + 1)))) →
    revealScan ps acc = acc ++ flatLSBs ps
  | [], acc, _ => by simp [revealScan, flatLSBs]
  | p :: ps, acc, h => by
      rw [revealScan]
      have h0 := h 0 (by simp)
      rw [List.take_succ_cons, List.take_zero, flatLSBs_single] at h0
      rw [if_neg (show ¬ (8 ≤ (acc ++ pixelLSBs p).length ∧
        lastEightZero (acc ++ pixelLSBs p) = true) from h0)]
      rw [revealScan_no_trigger ps (acc ++ pixelLSBs p) (fun k hk => by
        have hk1 := h (k + 1) (by simp; omega)
        rw [List.take_succ_cons, flatLSBs_cons, ← List.append_assoc] at hk1
        exact hk1)]
      rw [flatLSBs_cons, List.append_assoc]

theorem revealScan_break : ∀ (ps1 : List Pixel) (p : Pixel) (ps2 : List Pixel) (acc : List Bool),
    (∀ k, k < ps1.length → ¬ trig (acc ++ flatLSBs (ps1.take (k + 1)))) →
    trig (acc ++ flatLSBs ps1 ++ pixelLSBs p) →
    revealScan (ps1 ++ p :: ps2) acc =
      (acc ++ flatLSBs ps1 ++ pixelLSBs p).take
        ((acc ++ flatLSBs ps1 ++ pixelLSBs p).length - 8)
  | [], p, ps2, acc, _, htr => by
      rw [List.nil_append, revealScan]
      have he : flatLSBs ([] : List Pixel) = [] := rfl
      rw [he, List.append_nil] at htr
      rw [if_pos (show 8 ≤ (acc ++ pixelLSBs p).length ∧
        lastEightZero (acc ++ pixelLSBs p) = true from htr)]
      rw [he, List.append_nil]
  | q :: ps1, p, ps2, acc, hno, htr => by
      rw [List.cons_append, revealScan]
      have h0 := hno 0 (by simp)
      rw [List.take_succ_cons, List.take_zero, flatLSBs_single] at h0
      rw [if_neg (show ¬ (8 ≤ (acc ++ pixelLSBs q).length ∧
        lastEightZero (acc ++ pixelLSBs q) = true) from h0)]
      have htr' : trig ((acc ++ pixelLSBs q) ++ flatLSBs ps1 ++ pixelLSBs p) := by
        rw [flatLSBs_cons, ← List.append_assoc] at htr
        exact htr
      rw [revealScan_break ps1 p ps2 (acc ++ pixelLSBs q) (fun k hk => by
        have hk1 := hno (k + 1) (by simp; omega)
        rw [List.take_succ_cons, flatLSBs_cons, ← List.append_assoc] at hk1
        exact hk1) htr']
      rw [flatLSBs_cons]
      simp [List.append_assoc]

theorem all_false_iff_getD (l : List Bool) :
    (l.all fun b => b == false) = true ↔ ∀ j, j < l.length → l.getD j false = false := by
  rw [List.all_eq_true]
  constructor
  · intro h j hj
    have hm : l.getD j false ∈ l := by
      rw [List.getD_eq_getElem l false hj]
      exact List.getElem_mem hj
    simpa using h _ hm
  · intro h b hb
    obtain ⟨j, hj, rfl⟩ := List.mem_iff_getElem.mp hb
    rw [← List.getD_eq_getElem l false hj]
    simpa using h j hj

theorem getD_take_lt (l : List Bool) (n j : Nat) (h : j < n) :
    (l.take n).getD j false = l.getD j false := by
  simp [List.getD_eq_getElem?_getD, List.getElem?_take, h]

theorem trig_take_iff (S : List Bool) (e : Nat) (h8 : 8 ≤ e) (he : e ≤ S.length) :
    trig (S.take e) ↔ ∀ j, e - 8 ≤ j → j < e → S.getD j false = false := by
  unfold trig
  have hlt : (S.take e).length = e := List.length_take_of_le he
  rw [hlt]
  rw [lastEightZero, hlt]
  rw [List.drop_take, all_false_iff_getD]
  have hld : ((S.drop (e - 8)).take (e - (e - 8))).length = 8 := by
    rw [List.length_take, List.length_drop]
    omega
  rw [hld]
  constructor
  · intro h j hj1 hj2
    have h2 := h.2 (j - (e - 8)) (by omega)
    rw [getD_take_lt _ _ _ (by omega), getD_drop] at h2
    have : e - 8 + (j - (e - 8)) = j := by omega
    rwa [this] at h2
  · intro h
    refine ⟨h8, ?_⟩
    intro j hj
    rw [getD_take_lt _ _ _ (by omega), getD_drop]
    exact h (e - 8 + j) (by omega) (by omega)

/-! ## Zero windows in the embedded bitstream

A base64 character (or the padding character) has at most 2 leading and
at most 4 trailing zero bits, so eight consecutive zero bits can never
occur inside the character part of the embedded bitstream; the first
all-zero window the extractor can see therefore overlaps the sentinel. -/

set_option maxRecDepth 4096 in
theorem byteBits_low_iff : ∀ b < 256, ∀ s < 9,
    ((∀ j, j < 8 → 8 - s ≤ j → (byteBits b).getD j false = false) ↔ b % 2 ^ s = 0) := by
  decide

set_option maxRecDepth 4096 in
theorem byteBits_high_iff : ∀ b < 256, ∀ s < 9,
    ((∀ j, j < s → (byteBits b).getD j false = false) ↔ b < 2 ^ (8 - s)) := by
  decide

theorem no_zero_window_in_good_bytes :
    ∀ (bs : List Nat), (∀ b ∈ bs, goodB64Byte b) →
      ∀ i, i + 8 ≤ 8 * bs.length →
        ∃ j, i ≤ j ∧ j < i + 8 ∧ (bytesBits bs).getD j false = true
  | [], _, i, hi => by simp at hi
  | b :: bs, hg, i, hi => by
      have hgb : goodB64Byte b := hg b (by simp)
      have hb256 : b < 256 := hgb.2.1
      by_cases h8 : 8 ≤ i
      · have hlen : i - 8 + 8 ≤ 8 * bs.length := by simp at hi; omega
        obtain ⟨j, hj1, hj2, hj3⟩ :=
          no_zero_window_in_good_bytes bs (fun x hx => hg x (by simp [hx])) (i - 8) hlen
        refine ⟨j + 8, by omega, by omega, ?_⟩
        rw [bytesBits_cons,
          List.getD_append_right _ _ _ _ (by rw [byteBits_length]; omega), byteBits_length]
        have : j + 8 - 8 = j := by omega
        rwa [this]
      · by_contra hc
        push_neg at hc
        have hfalse : ∀ j, i ≤ j → j < i + 8 → (bytesBits (b :: bs)).getD j false = false := by
          intro j hj1 hj2
          have := hc j hj1 hj2
          simpa using this
        rcases Nat.eq_zero_or_pos i with h0 | hpos
        · subst h0
          have hlow : ∀ j, j < 8 → 8 - 8 ≤ j → (byteBits b).getD j false = false := by
            intro j hj _
            have := hfalse j (by omega) (by omega)
            rwa [bytesBits_cons, List.getD_append _ _ _ _ (by rw [byteBits_length]; omega)]
              at this
          have hmod := (byteBits_low_iff b hb256 8 (by omega)).mp hlow
          have h43 : 43 ≤ b := hgb.1
          norm_num at hmod
          omega
        · -- 1 ≤ i ≤ 7 : the window straddles byte b and the next byte
          have hbs : bs ≠ [] := by
            intro h
            subst h
            simp at hi
            omega
          obtain ⟨b', bs', rfl⟩ : ∃ b' bs', bs = b' :: bs' := by
            cases bs with
            | nil => exact absurd rfl hbs
            | cons x xs => exact ⟨x, xs, rfl⟩
          have hgb' : goodB64Byte b' := hg b' (by simp)
          have hb'256 : b' < 256 := hgb'.2.1
          have hlow : ∀ j, j < 8 → 8 - (8 - i) ≤ j → (byteBits b).getD j false = false := by
            intro j hj1 hj2
            have := hfalse j (by omega) (by omega)
            rwa [bytesBits_cons, List.getD_append _ _ _ _ (by rw [byteBits_length]; omega)]
              at this
          have hmod := (byteBits_low_iff b hb256 (8 - i) (by omega)).mp hlow
          have hhigh : ∀ j, j < i → (byteBits b').getD j false = false := by
            intro j hj
            have := hfalse (j + 8) (by omega) (by omega)
            rw [bytesBits_cons,
              List.getD_append_right _ _ _ _ (by rw [byteBits_length]; omega),
              byteBits_length] at this
            have he : j + 8 - 8 = j := by omega
            rw [he] at this
            rwa [bytesBits_cons, List.getD_append _ _ _ _ (by rw [byteBits_length]; omega)]
              at this
          have hlt := (byteBits_high_iff b' hb'256 i (by omega)).mp hhigh
          have hJ : ¬ 5 ≤ 8 - i := by
            intro hJ5
            have h1 : (32 : Nat) ∣ 2 ^ (8 - i) := by
              have h32 : (32 : Nat) = 2 ^ 5 := by norm_num
              rw [h32]
              exact Nat.pow_dvd_pow 2 hJ5
            have h2 : 2 ^ (8 - i) ∣ b := Nat.dvd_of_mod_eq_zero hmod
            exact hgb.2.2 (Nat.mod_eq_zero_of_dvd (dvd_trans h1 h2))
          have hpow : 2 ^ (8 - i) ≤ 16 := by
            calc 2 ^ (8 - i) ≤ 2 ^ 4 := Nat.pow_le_pow_right (by norm_num) (by omega)
              _ = 16 := by norm_num
          have h43 : 43 ≤ b' := hgb'.1
          omega

/-! ## The extraction scan on an embedded stream -/

theorem flatLSBs_append (xs ys : List Pixel) :
    flatLSBs (xs ++ ys) = flatLSBs xs ++ flatLSBs ys := by
  simp [flatLSBs]

theorem flatLSBs_take : ∀ (ps : List Pixel) (k : Nat),
    flatLSBs (ps.take k) = (flatLSBs ps).take (3 * k)
  | _, 0 => by simp [flatLSBs]
  | [], _ => by simp [flatLSBs]
  | p :: ps, k + 1 => by
      rw [List.take_succ_cons, flatLSBs_cons, flatLSBs_cons, flatLSBs_take ps k]
      have h3 : 3 * (k + 1) = 3 * k + 1 + 1 + 1 := by omega
      rw [h3]
      rcases p with ⟨r, g, b⟩
      simp [pixelLSBs, List.take_succ_cons]

theorem byteBits_zero_getD (j : Nat) : (byteBits 0).getD j false = false := by
  have hz : byteBits 0 = [false, false, false, false, false, false, false, false] := by decide
  rw [hz]
  match j with
  | 0 | 1 | 2 | 3 | 4 | 5 | 6 | 7 => rfl
  | n + 8 => rfl

theorem xorCipher_ne_nil (msg pwd : List Nat) (h : msg ≠ []) : xorCipher msg pwd ≠ [] := by
  intro hx
  have hl := xorCipher_length msg pwd
  rw [hx] at hl
  exact h (List.eq_nil_of_length_eq_zero hl.symm)

/-- Core lemma behind the amended round trip: on a pixel stream whose
LSBs are the framed bitstream of `cipher` followed by residue `R`, the
scan of `reveal_msg` stops at the first pixel boundary at or after the
sentinel and hands back exactly the base64 ciphertext, provided the
trailing-zero run of the last ciphertext character does not reach back
to a pixel boundary inside the character region and the first residue
bits up to the next pixel boundary are zero. -/
theorem scan_recovers (cipher : List Nat) (R : List Bool) (P : List Pixel)
    (hgood : ∀ c ∈ cipher, goodB64Byte c)
    (hc256 : ∀ c ∈ cipher, c < 256)
    (hcne : cipher ≠ [])
    (hS : flatLSBs P = bytesBits (cipher ++ [0]) ++ R)
    (hcap : 8 * (cipher.length + 1) + (3 - 8 * (cipher.length + 1) % 3) % 3 ≤ 3 * P.length)
    (hres : ∀ i, i < (3 - 8 * (cipher.length + 1) % 3) % 3 → R.getD i false = false)
    (hlast : ∀ e, e < 8 * (cipher.length + 1) → e % 3 = 0 →
      8 * (cipher.length + 1) - 8 < e →
      cipher.getD (cipher.length - 1) 0 % 2 ^ (8 * (cipher.length + 1) - e) ≠ 0) :
    bitsToChars (revealScan P []) = cipher := by
  have hn1 : 1 ≤ cipher.length := List.length_pos.mpr hcne
  set n := cipher.length with hn
  set L := 8 * (n + 1) with hLdef
  set pad := (3 - L % 3) % 3 with hpaddef
  set e0 := L + pad with he0def
  set A := bytesBits (cipher ++ [0]) ++ R with hAdef
  have hL16 : 16 ≤ L := by omega
  have hpad : pad ≤ 2 := by omega
  have he03 : e0 % 3 = 0 := by omega
  have hBlen : (bytesBits (cipher ++ [0])).length = L := by
    rw [bytesBits_length]
    simp [hLdef, hn]
  have hAL : L ≤ A.length := by
    rw [hAdef, List.length_append, hBlen]
    omega
  have hSA : (flatLSBs P).length = A.length := by rw [hS]
  have hAlen : e0 ≤ A.length := by
    rw [← hSA, flatLSBs_length]
    omega
  -- bridging positions of A
  have hAchar : ∀ j, j < 8 * n → A.getD j false = (bytesBits cipher).getD j false := by
    intro j hj
    rw [hAdef, bytesBits_append,
      List.getD_append _ _ _ _ (by simp [List.length_append, bytesBits_length]; omega),
      List.getD_append _ _ _ _ (by rw [bytesBits_length]; omega)]
  have hAsent : ∀ j, 8 * n ≤ j → j < L → A.getD j false = false := by
    intro j hj1 hj2
    rw [hAdef, bytesBits_append,
      List.getD_append _ _ _ _ (by simp [List.length_append, bytesBits_length]; omega),
      List.getD_append_right _ _ _ _ (by rw [bytesBits_length]; omega)]
    rw [bytesBits_length]
    have hb : bytesBits [0] = byteBits 0 := by simp [bytesBits]
    rw [hb, byteBits_zero_getD]
  have hAres : ∀ j, L ≤ j → j < e0 → A.getD j false = false := by
    intro j hj1 hj2
    rw [hAdef, List.getD_append_right _ _ _ _ (by omega), hBlen]
    exact hres (j - L) (by omega)
  set k0 := e0 / 3 with hk0def
  have hk03 : 3 * k0 = e0 := by omega
  have hk0len : k0 ≤ P.length := by
    have := hcap
    omega
  have hk01 : 1 ≤ k0 := by omega
  have hklt : k0 - 1 < P.length := by omega
  have hsplit : P = P.take (k0 - 1) ++ P[k0 - 1] :: P.drop k0 := by
    conv_lhs => rw [← List.take_append_drop (k0 - 1) P]
    have hd : P.drop (k0 - 1) = P[k0 - 1] :: P.drop (k0 - 1 + 1) :=
      List.drop_eq_getElem_cons hklt
    rw [hd, show k0 - 1 + 1 = k0 by omega]
  -- the early windows never trigger
  have hno : ∀ k, k < (P.take (k0 - 1)).length →
      ¬ trig ([] ++ flatLSBs ((P.take (k0 - 1)).take (k + 1))) := by
    intro k hk htrig
    rw [List.length_take_of_le (by omega)] at hk
    rw [List.nil_append, List.take_take, Nat.min_eq_left (by omega), flatLSBs_take, hS] at htrig
    by_cases h8 : 8 ≤ 3 * (k + 1)
    · rw [trig_take_iff _ _ h8 (by omega)] at htrig
      have heL : 3 * (k + 1) < L := by omega
      by_cases hchar : 3 * (k + 1) ≤ 8 * n
      · obtain ⟨j, hj1, hj2, hj3⟩ :=
          no_zero_window_in_good_bytes cipher hgood (3 * (k + 1) - 8) (by omega)
        have hf := htrig j (by omega) (by omega)
        rw [hAchar j (by omega), hj3] at hf
        simp at hf
      · -- the window ends inside the last character: excluded by hlast
        apply hlast (3 * (k + 1)) heL (by omega) (by omega)
        have hcl : cipher.getD (n - 1) 0 < 256 := by
          have hmem : cipher.getD (n - 1) 0 ∈ cipher := by
            rw [List.getD_eq_getElem cipher 0 (by omega)]
            exact List.getElem_mem (by omega)
          exact hc256 _ hmem
        apply (byteBits_low_iff _ hcl (L - 3 * (k + 1)) (by omega)).mp
        intro j hj8 hjs
        have hpos := htrig (8 * (n - 1) + j) (by omega) (by omega)
        rw [hAchar _ (by omega), bytesBits_getD cipher (n - 1) j hj8 (by omega)] at hpos
        exact hpos
    · exact absurd htrig.1 (by rw [List.length_take_of_le (by omega)]; omega)
  -- the window at the first boundary past the sentinel triggers
  have hts : flatLSBs (P.take (k0 - 1)) ++ pixelLSBs P[k0 - 1] = A.take e0 := by
    have h1 : flatLSBs (P.take (k0 - 1)) ++ pixelLSBs P[k0 - 1] =
        flatLSBs (P.take (k0 - 1) ++ [P[k0 - 1]]) := by
      rw [flatLSBs_append, flatLSBs_single]
    rw [h1]
    have h2 : P.take (k0 - 1) ++ [P[k0 - 1]] = P.take k0 := by
      have h := List.take_succ (l := P) (n := k0 - 1)
      rw [List.getElem?_eq_getElem hklt, show k0 - 1 + 1 = k0 by omega] at h
      simpa using h.symm
    rw [h2, flatLSBs_take, hS, hk03]
  have htr : trig ([] ++ flatLSBs (P.take (k0 - 1)) ++ pixelLSBs P[k0 - 1]) := by
    rw [List.nil_append, hts, trig_take_iff _ _ (by omega) hAlen]
    intro j hj1 hj2
    by_cases hjL : j < L
    · exact hAsent j (by omega) hjL
    · exact hAres j (by omega) hj2
  have hscan : revealScan P [] = A.take (e0 - 8) := by
    rw [hsplit, revealScan_break _ _ _ _ hno htr]
    rw [List.nil_append, hts]
    rw [List.length_take_of_le hAlen, List.take_take, Nat.min_eq_left (by omega)]
  rw [hscan]
  -- the kept bits are the character bits plus at most two sentinel zeros
  have htake : A.take (e0 - 8) = bytesBits cipher ++ (byteBits 0).take (pad) := by
    rw [hAdef, List.take_append_of_le_length (by omega), bytesBits_append]
    have hb : bytesBits [0] = byteBits 0 := by simp [bytesBits]
    rw [hb]
    have hcl : (bytesBits cipher).length = 8 * n := by rw [bytesBits_length, hn]
    rw [show e0 - 8 = (bytesBits cipher).length + pad by omega]
    exact List.take_append pad
  rw [htake]
  exact bitsToChars_bytesBits cipher _ hc256
    (by
      have := List.length_take_le (pad) (byteBits 0)
      omega)

/-! ## Reductions of `hide_msg` and `reveal_msg` -/

theorem hide_msg_ok (inExt outExt : String) (msg pwd : List Nat) (img : Img)
    (h1 : inExt ∈ IMAGE_EXTS) (h2 : msg ≠ []) (h3 : pwd ≠ [])
    (h4 : (msgBitstream (b64encode (xorCipher msg pwd))).length ≤
      img.width * img.height * 3) :
    hide_msg inExt outExt msg pwd img = .ok
      ⟨⟨img.width, img.height,
        embedPixels (msgBitstream (b64encode (xorCipher msg pwd))) 0 img.pixels⟩,
        if outExt ∈ IMAGE_EXTS then outExt else "png", "PNG"⟩ := by
  rw [hide_msg, if_neg (not_not_intro h1), if_neg h2, if_neg h3,
    if_neg (show ¬ (msgBitstream (b64encode (xorCipher msg pwd))).length >
      img.width * img.height * 3 from by omega)]

theorem reveal_msg_eq (ext : String) (pwd : List Nat) (img : Img)
    (h1 : ext ∈ IMAGE_EXTS) (h2 : pwd ≠ []) :
    reveal_msg ext pwd img = revealDecode (bitsToChars (revealScan img.pixels [])) pwd := by
  rw [reveal_msg, if_neg (not_not_intro h1), if_neg h2]

theorem revealDecode_encode (msg pwd : List Nat) (hbytes : ∀ b ∈ msg, b < 256)
    (hval : utf8Valid msg = true) :
    revealDecode (b64encode (xorCipher msg pwd)) pwd = .ok msg := by
  rw [revealDecode, b64decode_b64encode _ (xorCipher_byte_lt msg pwd hbytes)]
  simp only [xorCipher_xorCipher, hval, if_true]

/-! ## The round trip -/

/-- Bit length of the framed bitstream `hide_msg` embeds: 8 bits per
base64 ciphertext character plus the 8-bit all-zero sentinel. -/
def framedLen (msg pwd : List Nat) : Nat :=
  8 * ((b64encode (xorCipher msg pwd)).length + 1)

/-- First pixel boundary (multiple of 3 collected bits) at or after the
end of the framed bitstream: the earliest point at which the extraction
loop, which checks its window only after every pixel, can detect the
sentinel. -/
def scanStop (msg pwd : List Nat) : Nat :=
  framedLen msg pwd + (3 - framedLen msg pwd % 3) % 3

theorem framedLen_eq (msg pwd : List Nat) :
    framedLen msg pwd = (msgBitstream (b64encode (xorCipher msg pwd))).length := by
  rw [framedLen, msgBitstream, bytesBits_length, List.length_append]
  simp

theorem hide_reveal_roundtrip (w h : Nat) (px : List Pixel) (msg pwd : List Nat)
    (hpx : px.length = w * h)
    (hmsg : msg ≠ []) (hbytes : ∀ b ∈ msg, b < 256) (hval : utf8Valid msg = true)
    (hpwd : pwd ≠ [])
    (hfit : scanStop msg pwd ≤ 3 * (w * h))
    (hres : ∀ i, i < scanStop msg pwd → framedLen msg pwd ≤ i →
      (flatLSBs px).getD i false = false)
    (hlast : ∀ e, e < framedLen msg pwd → e % 3 = 0 → framedLen msg pwd - 8 < e →
      (b64encode (xorCipher msg pwd)).getD ((b64encode (xorCipher msg pwd)).length - 1) 0
        % 2 ^ (framedLen msg pwd - e) ≠ 0) :
    ∃ out, hide_msg "png" "png" msg pwd ⟨w, h, px⟩ = .ok out ∧
      reveal_msg "png" pwd out.img = .ok msg := by
  have hdb : ∀ b ∈ xorCipher msg pwd, b < 256 := xorCipher_byte_lt msg pwd hbytes
  have hLfit : framedLen msg pwd ≤ 3 * (w * h) := by
    have := hfit
    rw [scanStop] at this
    omega
  have hcapP : (msgBitstream (b64encode (xorCipher msg pwd))).length ≤ w * h * 3 := by
    rw [← framedLen_eq]
    omega
  refine ⟨⟨⟨w, h, embedPixels (msgBitstream (b64encode (xorCipher msg pwd))) 0 px⟩,
    "png", "PNG"⟩, ?_, ?_⟩
  · have hh := hide_msg_ok "png" "png" msg pwd ⟨w, h, px⟩ (by decide) hmsg hpwd hcapP
    rw [hh]
    rfl
  · rw [reveal_msg_eq "png" pwd _ (by decide) hpwd]
    have hscan : bitsToChars (revealScan
        (embedPixels (msgBitstream (b64encode (xorCipher msg pwd))) 0 px) []) =
        b64encode (xorCipher msg pwd) := by
      apply scan_recovers (b64encode (xorCipher msg pwd))
        ((flatLSBs px).drop (framedLen msg pwd))
        (embedPixels (msgBitstream (b64encode (xorCipher msg pwd))) 0 px)
        (b64encode_good _ hdb) (b64encode_lt _ hdb)
        (b64encode_ne_nil _ (xorCipher_ne_nil msg pwd hmsg))
      · -- the LSB stream of the stego pixels
        rw [flatLSBs_embedPixels _ _ (by rw [← framedLen_eq, hpx]; omega)]
        rw [← framedLen_eq]
        rfl
      · -- capacity up to the stopping boundary
        rw [embedPixels_length, hpx]
        have := hfit
        rw [scanStop, framedLen] at this
        omega
      · -- residue bits up to the boundary are zero
        intro i hi
        rw [getD_drop]
        apply hres
        · rw [scanStop, framedLen]
          rw [framedLen] at *
          omega
        · omega
      · -- trailing-zero condition on the last ciphertext character
        intro e he1 he2 he3
        have := hlast e (by rw [framedLen]; omega) he2 (by rw [framedLen]; omega)
        rw [framedLen] at this
        exact this
    rw [hscan]
    exact revealDecode_encode msg pwd hbytes hval

/-! ## Claim C1 -/

/-- Claim C1 (amended). For every RGB image, non-empty UTF-8 message and
non-empty passphrase whose framed bitstream fits, `reveal_msg` recovers
the message from the output of `hide_msg` PROVIDED (i) the trailing-zero
run of the last base64 ciphertext character does not reach back to a
multiple-of-3 bit position (the extractor checks its 8-bit window only
at pixel boundaries, and such a window would truncate the ciphertext),
and (ii) the cover image's LSBs between the end of the frame and the
next pixel boundary are zero (at most two bits), with that boundary
still inside the image. Without these conditions the round trip can
fail, as `claim1_counterexample` shows. -/
theorem claim1_roundtrip_amended (w h : Nat) (px : List Pixel) (msg pwd : List Nat)
    (hpx : px.length = w * h)
    (hmsg : msg ≠ []) (hbytes : ∀ b ∈ msg, b < 256) (hval : utf8Valid msg = true)
    (hpwd : pwd ≠ [])
    (hfit : scanStop msg pwd ≤ 3 * (w * h))
    (hres : ∀ i, i < scanStop msg pwd → framedLen msg pwd ≤ i →
      (flatLSBs px).getD i false = false)
    (hlast : ∀ e, e < framedLen msg pwd → e % 3 = 0 → framedLen msg pwd - 8 < e →
      (b64encode (xorCipher msg pwd)).getD ((b64encode (xorCipher msg pwd)).length - 1) 0
        % 2 ^ (framedLen msg pwd - e) ≠ 0) :
    ∃ out, hide_msg "png" "png" msg pwd ⟨w, h, px⟩ = .ok out ∧
      reveal_msg "png" pwd out.img = .ok msg :=
  hide_reveal_roundtrip w h px msg pwd hpx hmsg hbytes hval hpwd hfit hres hlast

/-- Claim C1 witness: the round trip holds for message "hi" (bytes
104 105) with passphrase "pw" (bytes 112 119) on an all-black 4-by-4
image. -/
theorem claim1_roundtrip_witness :
    ∃ out, hide_msg "png" "png" [104, 105] [112, 119]
        ⟨4, 4, List.replicate 16 ⟨0, 0, 0⟩⟩ = .ok out ∧
      reveal_msg "png" [112, 119] out.img = .ok [104, 105] :=
  claim1_roundtrip_amended 4 4 (List.replicate 16 ⟨0, 0, 0⟩) [104, 105] [112, 119]
    (by decide) (by decide) (by decide) (by decide) (by decide)
    (by decide) (by decide) (by decide)

set_option maxRecDepth 100000 in
/-- Claim C1 counterexample: message "abc" (bytes 97 98 99) with
passphrase "pw" fits in an all-black 4-by-4 image (40 of 48 bits) and
embeds successfully, yet `reveal_msg` with the correct passphrase fails
with "Decryption failed" instead of returning the message: the last
ciphertext character is even, so the extractor sees an all-zero window
one pixel before the sentinel boundary and truncates the ciphertext to
3 characters, which base64 rejects. -/
theorem claim1_counterexample :
    (msgBitstream (b64encode (xorCipher [97, 98, 99] [112, 119]))).length ≤ 4 * 4 * 3 ∧
    (hide_msg "png" "png" [97, 98, 99] [112, 119] ⟨4, 4, List.replicate 16 ⟨0, 0, 0⟩⟩).map
        (fun s => reveal_msg "png" [112, 119] s.img) =
      .ok (.error .decryptionFailed) := by
  constructor
  · decide
  · rfl

/-! ## Claim C2 -/

/-- Claim C2 (amended). The extractor checks its sentinel window after
every pixel, that is after every 3 collected bits, and not on 8-bit
boundaries: it stops at the first pixel whose three LSBs make the last
8 collected bits all zero (a stopping point that need not be a multiple
of 8), drops those 8 bits, and returns the characters parsed from the
surviving prefix in full 8-bit chunks, discarding an incomplete
trailing chunk. -/
theorem claim2_scan_behavior (ps1 : List Pixel) (p : Pixel) (ps2 : List Pixel)
    (hno : ∀ k, k < ps1.length → ¬ trig (flatLSBs (ps1.take (k + 1))))
    (htr : trig (flatLSBs ps1 ++ pixelLSBs p)) :
    bitsToChars (revealScan (ps1 ++ p :: ps2) []) =
      bitsToChars ((flatLSBs ps1 ++ pixelLSBs p).take
        ((flatLSBs ps1 ++ pixelLSBs p).length - 8)) := by
  have hno' : ∀ k, k < ps1.length → ¬ trig ([] ++ flatLSBs (ps1.take (k + 1))) := by
    simpa using hno
  have htr' : trig ([] ++ flatLSBs ps1 ++ pixelLSBs p) := by simpa using htr
  rw [revealScan_break ps1 p ps2 [] hno' htr']
  simp

/-- Claim C2 witness: on the six-pixel image whose LSB stream is
1 0 0 0 0 0 0 0 0 ..., the scan stops after the third pixel (9 bits,
not a byte boundary), keeps one bit, and parses no character. -/
theorem claim2_scan_witness :
    bitsToChars (revealScan ([⟨1, 0, 0⟩, ⟨0, 0, 0⟩] ++ ⟨0, 0, 0⟩ ::
        [⟨0, 0, 0⟩, ⟨0, 0, 0⟩, ⟨0, 0, 0⟩]) []) =
      bitsToChars ((flatLSBs [⟨1, 0, 0⟩, ⟨0, 0, 0⟩] ++ pixelLSBs ⟨0, 0, 0⟩).take
        ((flatLSBs [⟨1, 0, 0⟩, ⟨0, 0, 0⟩] ++ pixelLSBs ⟨0, 0, 0⟩).length - 8)) :=
  claim2_scan_behavior [⟨1, 0, 0⟩, ⟨0, 0, 0⟩] ⟨0, 0, 0⟩ [⟨0, 0, 0⟩, ⟨0, 0, 0⟩, ⟨0, 0, 0⟩]
    (by decide) (by decide)

/-- Claim C2 counterexample: on the six-pixel image with LSB stream
1 0 0 0 0 0 0 0 0 0 0 0 0 0 0 0 0 0, the first all-zero byte on an
8-bit boundary is byte 1, so the behaviour the claim describes would
return the character 128 collected before it; the code instead detects
an all-zero window after the third pixel (bit 9) and returns no
characters at all. -/
theorem claim2_counterexample :
    (0 : Nat) ∈ bitsToChars
        (flatLSBs [⟨1, 0, 0⟩, ⟨0, 0, 0⟩, ⟨0, 0, 0⟩, ⟨0, 0, 0⟩, ⟨0, 0, 0⟩, ⟨0, 0, 0⟩]) ∧
    specExtractChars
        (flatLSBs [⟨1, 0, 0⟩, ⟨0, 0, 0⟩, ⟨0, 0, 0⟩, ⟨0, 0, 0⟩, ⟨0, 0, 0⟩, ⟨0, 0, 0⟩]) =
      [128] ∧
    bitsToChars (revealScan
        [⟨1, 0, 0⟩, ⟨0, 0, 0⟩, ⟨0, 0, 0⟩, ⟨0, 0, 0⟩, ⟨0, 0, 0⟩, ⟨0, 0, 0⟩] []) = [] := by
  refine ⟨by decide, by decide, by decide⟩

/-! ## Claim C3 -/

theorem not_trig_of_all_true (l : List Bool) (h : ∀ b ∈ l, b = true) : ¬ trig l := by
  rintro ⟨h8, hz⟩
  rw [lastEightZero, List.all_eq_true] at hz
  have hne : l.drop (l.length - 8) ≠ [] := by
    intro hd
    have := congrArg List.length hd
    simp at this
    omega
  obtain ⟨b, hb⟩ := List.exists_mem_of_ne_nil _ hne
  have h1 := h b (List.mem_of_mem_drop hb)
  have h2 := hz b hb
  rw [h1] at h2
  simp at h2

theorem bitsToChars_replicate_true (m : Nat) :
    bitsToChars (List.replicate m true) = List.replicate (m / 8) 255 := by
  induction m using Nat.strong_induction_on with
  | _ m ih =>
    match m with
    | 0 => rfl
    | 1 => rfl
    | 2 => rfl
    | 3 => rfl
    | 4 => rfl
    | 5 => rfl
    | 6 => rfl
    | 7 => rfl
    | k + 8 =>
      have hsplit : List.replicate (k + 8) true =
          true :: true :: true :: true :: true :: true :: true :: true ::
            List.replicate k true := by
        rw [show k + 8 = 8 + k by omega, List.replicate_add]
        rfl
      rw [hsplit, bitsToChars, ih k (by omega)]
      have h8 : (k + 8) / 8 = k / 8 + 1 := by omega
      rw [h8, List.replicate_succ]
      rfl

/-- Claim C3 (amended). The mobile `reveal_msg` has no NoHiddenData
error path at all: when no all-zero window is found, the scan collects
every LSB and decodes whatever it got. On an image of at least 3 pixels
all of whose channel LSBs are 1 (so its LSB stream contains no all-zero
byte anywhere, byte-aligned or not), every collected character is 255
and the ASCII check of `base64.b64decode` on a `str` rejects the
character string, so `reveal_msg` fails with the generic "Decryption
failed" error, not with a NoHiddenData error. The failure is not even
guaranteed in general: `claim3_counterexample` exhibits an image with
no byte-aligned zero byte on which `reveal_msg` returns a string. -/
theorem claim3_no_hidden_amended (w h : Nat) (px : List Pixel) (pwd : List Nat)
    (hpwd : pwd ≠ []) (hlen : 3 ≤ px.length)
    (hones : ∀ p ∈ px, p.r % 2 = 1 ∧ p.g % 2 = 1 ∧ p.b % 2 = 1) :
    reveal_msg "png" pwd ⟨w, h, px⟩ = .error .decryptionFailed := by
  rw [reveal_msg_eq "png" pwd _ (by decide) hpwd]
  have hall : ∀ b ∈ flatLSBs px, b = true := by
    intro b hb
    rw [flatLSBs] at hb
    simp only [List.mem_flatten, List.mem_map] at hb
    obtain ⟨l, ⟨p, hp, rfl⟩, hbl⟩ := hb
    obtain ⟨hr, hg, hbb⟩ := hones p hp
    simp only [pixelLSBs, List.mem_cons, List.not_mem_nil, or_false] at hbl
    rcases hbl with rfl | rfl | rfl <;> simp [hr, hg, hbb]
  have hrep : flatLSBs px = List.replicate (3 * px.length) true := by
    rw [List.eq_replicate_iff]
    exact ⟨flatLSBs_length px, hall⟩
  have hscan : revealScan px [] = flatLSBs px := by
    have := revealScan_no_trigger px [] (fun k hk => by
      apply not_trig_of_all_true
      intro b hb
      rw [List.nil_append, flatLSBs_take] at hb
      exact hall b (List.take_subset _ _ hb))
    simpa using this
  have hany : ((List.replicate (3 * px.length / 8) 255).any fun c => 128 ≤ c) = true := by
    rw [List.any_eq_true]
    exact ⟨255, List.mem_replicate.mpr ⟨by omega, rfl⟩, by simp⟩
  rw [hscan, hrep, bitsToChars_replicate_true, revealDecode, b64decode, if_pos hany]

/-- Claim C3 witness: on a 3-by-1 image with all channels 1 and a
non-empty passphrase, `reveal_msg` fails with the decryption error,
not with a NoHiddenData error. -/
theorem claim3_no_hidden_witness :
    reveal_msg "png" [112, 119] ⟨3, 1, [⟨1, 1, 1⟩, ⟨1, 1, 1⟩, ⟨1, 1, 1⟩]⟩ =
      .error .decryptionFailed :=
  claim3_no_hidden_amended 3 1 [⟨1, 1, 1⟩, ⟨1, 1, 1⟩, ⟨1, 1, 1⟩] [112, 119]
    (by decide) (by decide) (by decide)

set_option maxRecDepth 100000 in
/-- Claim C3 counterexample: the six-pixel image with LSB stream
1 0 0 0 0 0 0 0 0 1 1 1 1 1 1 1 1 1 has boundary bytes 128 and 127,
so its full LSB sequence contains no all-zero byte on any 8-bit
boundary; yet `reveal_msg` does not fail with a NoHiddenData error —
it does not fail at all: a misaligned all-zero window stops the scan
after the third pixel, no full character survives, and the empty
ciphertext decodes to the empty string, which is RETURNED. -/
theorem claim3_counterexample :
    ((bitsToChars (flatLSBs [⟨1, 0, 0⟩, ⟨0, 0, 0⟩, ⟨0, 0, 0⟩, ⟨1, 1, 1⟩, ⟨1, 1, 1⟩,
        ⟨1, 1, 1⟩])).all fun c => c ≠ 0) = true ∧
    reveal_msg "png" [112, 119]
        ⟨6, 1, [⟨1, 0, 0⟩, ⟨0, 0, 0⟩, ⟨0, 0, 0⟩, ⟨1, 1, 1⟩, ⟨1, 1, 1⟩, ⟨1, 1, 1⟩]⟩ =
      .ok [] := by
  refine ⟨by decide, ?_⟩
  rfl

/-! ## Claim C4 -/

theorem hide_msg_ok_inv (inExt outExt : String) (msg pwd : List Nat) (img : Img)
    (out : SavedImage) (hok : hide_msg inExt outExt msg pwd img = .ok out) :
    out = ⟨⟨img.width, img.height,
      embedPixels (msgBitstream (b64encode (xorCipher msg pwd))) 0 img.pixels⟩,
      if outExt ∈ IMAGE_EXTS then outExt else "png", "PNG"⟩ := by
  by_cases h1 : inExt ∈ IMAGE_EXTS
  · by_cases h2 : msg = []
    · rw [hide_msg, if_neg (not_not_intro h1), if_pos h2] at hok
      exact absurd hok (by simp)
    · by_cases h3 : pwd = []
      · rw [hide_msg, if_neg (not_not_intro h1), if_neg h2, if_pos h3] at hok
        exact absurd hok (by simp)
      · by_cases h4 : (msgBitstream (b64encode (xorCipher msg pwd))).length >
            img.width * img.height * 3
        · rw [hide_msg, if_neg (not_not_intro h1), if_neg h2, if_neg h3, if_pos h4] at hok
          exact absurd hok (by simp)
        · rw [hide_msg_ok inExt outExt msg pwd img h1 h2 h3 (by omega)] at hok
          exact (Except.ok.inj hok).symm
  · rw [hide_msg, if_pos h1] at hok
    exact absurd hok (by simp)

/-- Claim C4. `hide_msg` succeeds exactly when the framed bitstream
(8 bits per base64 ciphertext character plus the 8 sentinel bits) fits
in `width * height * 3` channel bits: at or under the bound it returns
the embedded image, one bit over it fails with the capacity error. The
model returns the error before the embedding loop runs, mirroring the
check placed before any pixel write in the source, so the input image
is untouched. -/
theorem claim4_capacity (w h : Nat) (px : List Pixel) (msg pwd : List Nat)
    (inExt outExt : String)
    (hin : inExt ∈ IMAGE_EXTS) (hmsg : msg ≠ []) (hpwd : pwd ≠ []) :
    (msgBitstream (b64encode (xorCipher msg pwd))).length =
      8 * (b64encode (xorCipher msg pwd)).length + 8 ∧
    ((msgBitstream (b64encode (xorCipher msg pwd))).length ≤ w * h * 3 →
      ∃ out, hide_msg inExt outExt msg pwd ⟨w, h, px⟩ = .ok out) ∧
    (w * h * 3 < (msgBitstream (b64encode (xorCipher msg pwd))).length →
      hide_msg inExt outExt msg pwd ⟨w, h, px⟩ = .error .messageTooLarge) := by
  refine ⟨?_, ?_, ?_⟩
  · rw [msgBitstream, bytesBits_length, List.length_append]
    simp
    omega
  · intro hc
    exact ⟨_, hide_msg_ok inExt outExt msg pwd ⟨w, h, px⟩ hin hmsg hpwd hc⟩
  · intro hc
    rw [hide_msg, if_neg (not_not_intro hin), if_neg hmsg, if_neg hpwd,
      if_pos (show (msgBitstream (b64encode (xorCipher msg pwd))).length >
        w * h * 3 from hc)]

/-- Claim C4 witness: on a 6-by-4 image (72 channel bits) the 4-byte
message "abcd" frames to exactly 72 bits (64 character bits, leaving
exactly 8 bits for the sentinel) and embeds successfully, while the
7-byte message "abcdefg" frames to 104 bits and fails with the
capacity error. -/
theorem claim4_capacity_witness :
    (∃ out, hide_msg "png" "png" [97, 98, 99, 100] [112, 119]
      ⟨6, 4, List.replicate 24 ⟨0, 0, 0⟩⟩ = .ok out) ∧
    hide_msg "png" "png" [97, 98, 99, 100, 101, 102, 103] [112, 119]
      ⟨6, 4, List.replicate 24 ⟨0, 0, 0⟩⟩ = .error .messageTooLarge := by
  constructor
  · exact (claim4_capacity 6 4 (List.replicate 24 ⟨0, 0, 0⟩) [97, 98, 99, 100] [112, 119]
      "png" "png" (by decide) (by decide) (by decide)).2.1 (by decide)
  · exact (claim4_capacity 6 4 (List.replicate 24 ⟨0, 0, 0⟩)
      [97, 98, 99, 100, 101, 102, 103] [112, 119]
      "png" "png" (by decide) (by decide) (by decide)).2.2 (by decide)

/-! ## Claim C5 -/

theorem setLSB_div2 (c : Nat) (bit : Bool) : setLSB c bit / 2 = c / 2 := by
  cases bit <;> simp [setLSB] <;> omega

/-- Claim C5. A successful embed only ever changes the
least-significant bit of a channel: pixel count is preserved, every
channel of the output divided by 2 equals the input channel divided by
2 (all higher bits intact), and every channel at or beyond the framed
bitstream length is identical to the input. -/
theorem claim5_lsb_only (inExt outExt : String) (msg pwd : List Nat) (img : Img)
    (out : SavedImage) (hok : hide_msg inExt outExt msg pwd img = .ok out) :
    out.img.pixels.length = img.pixels.length ∧
    ∀ i, (flatChannels out.img.pixels).getD i 0 / 2 =
        (flatChannels img.pixels).getD i 0 / 2 ∧
      ((msgBitstream (b64encode (xorCipher msg pwd))).length ≤ i →
        (flatChannels out.img.pixels).getD i 0 = (flatChannels img.pixels).getD i 0) := by
  have hout := hide_msg_ok_inv inExt outExt msg pwd img out hok
  subst hout
  refine ⟨by simp [embedPixels_length], ?_⟩
  intro i
  rw [show (⟨⟨img.width, img.height,
      embedPixels (msgBitstream (b64encode (xorCipher msg pwd))) 0 img.pixels⟩,
      if outExt ∈ IMAGE_EXTS then outExt else "png", "PNG"⟩ : SavedImage).img.pixels =
    embedPixels (msgBitstream (b64encode (xorCipher msg pwd))) 0 img.pixels from rfl]
  rw [embed_flatChannels _ _ 0, List.drop_zero]
  constructor
  · rw [setLSBs_getD]
    split
    · rw [setLSB_div2]
    · rfl
  · intro hle
    rw [setLSBs_getD, if_neg ?_]
    intro hcond
    have h1 := hcond.1
    rw [List.length_take] at h1
    omega

/-- Claim C5 witness: for the embed of "hi" with passphrase "pw" into
an all-black 4-by-4 image, the output keeps 16 pixels, channel 5 keeps
its high bits, and channel 47 (beyond the 40-bit frame) is identical. -/
theorem claim5_lsb_witness :
    ∃ out, hide_msg "png" "png" [104, 105] [112, 119]
        ⟨4, 4, List.replicate 16 ⟨0, 0, 0⟩⟩ = .ok out ∧
      out.img.pixels.length = 16 ∧
      (flatChannels out.img.pixels).getD 5 0 / 2 =
        (flatChannels (List.replicate 16 (⟨0, 0, 0⟩ : Pixel))).getD 5 0 / 2 ∧
      (flatChannels out.img.pixels).getD 47 0 =
        (flatChannels (List.replicate 16 (⟨0, 0, 0⟩ : Pixel))).getD 47 0 := by
  have hok := hide_msg_ok "png" "png" [104, 105] [112, 119]
    ⟨4, 4, List.replicate 16 ⟨0, 0, 0⟩⟩ (by decide) (by decide) (by decide) (by decide)
  refine ⟨_, hok, ?_, ?_, ?_⟩
  · have h5 := (claim5_lsb_only "png" "png" [104, 105] [112, 119] _ _ hok).1
    simpa using h5
  · exact ((claim5_lsb_only "png" "png" [104, 105] [112, 119] _ _ hok).2 5).1
  · exact ((claim5_lsb_only "png" "png" [104, 105] [112, 119] _ _ hok).2 47).2 (by decide)

/-! ## Claim C6 -/

/-- Claim C6. `_xor(data, key)` returns a byte string whose length
equals the length of `data` and whose byte at every position `i` is
`data[i] XOR digest[i mod 32]`, where `digest` is the 32-byte (256-bit)
SHA-256 digest of the passphrase; the digest is computed by a pure
function of the passphrase, so the same passphrase always yields the
same digest. -/
theorem claim6_xor_spec (data pwd : List Nat) :
    (xorCipher data pwd).length = data.length ∧
    (sha256 pwd).length = 32 ∧
    ∀ i, i < data.length →
      (xorCipher data pwd).getD i 0 = data.getD i 0 ^^^ (sha256 pwd).getD (i % 32) 0 :=
  ⟨xorCipher_length data pwd, sha256_length pwd, fun i hi => xorCipher_getD data pwd i hi⟩

/-- Claim C6 witness at the bytes of "hi" and passphrase "pw",
position 1. -/
theorem claim6_xor_witness :
    (xorCipher [104, 105] [112, 119]).length = 2 ∧
    (xorCipher [104, 105] [112, 119]).getD 1 0 = 105 ^^^ (sha256 [112, 119]).getD 1 0 := by
  have h := claim6_xor_spec [104, 105] [112, 119]
  exact ⟨h.1, h.2.2 1 (by decide)⟩

/-! ## Claim C7 -/

/-- Claim C7. `_xor` is self-inverse: applying it twice with the same
passphrase returns the original byte string, for every byte string and
every passphrase. It is a pure function of its arguments, with no side
effects. -/
theorem claim7_xor_involution (data pwd : List Nat) :
    xorCipher (xorCipher data pwd) pwd = data :=
  xorCipher_xorCipher data pwd

/-! ## Claim C8 -/

/-- Claim C8. `hide_msg` rejects an empty message, and rejects an empty
passphrase, before doing anything with the pixels (the result is the
same for every image); `reveal_msg` likewise rejects an empty
passphrase; and for every non-empty message and passphrase these
argument checks pass — neither function can then return one of the two
argument errors. The same checks appear verbatim in both variants. -/
theorem claim8_argument_checks (inExt outExt ext : String) (msg pwd : List Nat) (img : Img)
    (hin : inExt ∈ IMAGE_EXTS) (hext : ext ∈ IMAGE_EXTS) :
    (msg = [] → hide_msg inExt outExt msg pwd img = .error .emptyMessage) ∧
    (msg ≠ [] → pwd = [] → hide_msg inExt outExt msg pwd img = .error .emptyPassword) ∧
    (pwd = [] → reveal_msg ext pwd img = .error .emptyPassword) ∧
    (msg ≠ [] → pwd ≠ [] →
      hide_msg inExt outExt msg pwd img ≠ .error .emptyMessage ∧
      hide_msg inExt outExt msg pwd img ≠ .error .emptyPassword ∧
      reveal_msg ext pwd img ≠ .error .emptyPassword) := by
  refine ⟨?_, ?_, ?_, ?_⟩
  · intro h2
    rw [hide_msg, if_neg (not_not_intro hin), if_pos h2]
  · intro h2 h3
    rw [hide_msg, if_neg (not_not_intro hin), if_neg h2, if_pos h3]
  · intro h3
    rw [reveal_msg, if_neg (not_not_intro hext), if_pos h3]
  · intro h2 h3
    refine ⟨?_, ?_, ?_⟩
    · by_cases hc : (msgBitstream (b64encode (xorCipher msg pwd))).length >
          img.width * img.height * 3
      · rw [hide_msg, if_neg (not_not_intro hin), if_neg h2, if_neg h3, if_pos hc]
        simp
      · rw [hide_msg_ok inExt outExt msg pwd img hin h2 h3 (by omega)]
        simp
    · by_cases hc : (msgBitstream (b64encode (xorCipher msg pwd))).length >
          img.width * img.height * 3
      · rw [hide_msg, if_neg (not_not_intro hin), if_neg h2, if_neg h3, if_pos hc]
        simp
      · rw [hide_msg_ok inExt outExt msg pwd img hin h2 h3 (by omega)]
        simp
    · rw [reveal_msg_eq ext pwd img hext h3]
      rcases hb : b64decode (bitsToChars (revealScan img.pixels [])) with _ | d
      · simp [revealDecode, hb]
      · simp only [revealDecode, hb]
        split <;> simp

/-- Claim C8 witness: concrete checks on a one-pixel image with the
bytes of "hi" and "pw". -/
theorem claim8_argument_witness :
    (hide_msg "png" "png" [] [112, 119] ⟨1, 1, [⟨0, 0, 0⟩]⟩ = .error .emptyMessage) ∧
    (hide_msg "png" "png" [104, 105] [] ⟨1, 1, [⟨0, 0, 0⟩]⟩ = .error .emptyPassword) ∧
    (reveal_msg "png" [] ⟨1, 1, [⟨0, 0, 0⟩]⟩ = .error .emptyPassword) ∧
    reveal_msg "png" [112, 119] ⟨1, 1, [⟨0, 0, 0⟩]⟩ ≠ .error .emptyPassword := by
  have h := claim8_argument_checks "png" "png" "png" [104, 105] [112, 119]
    ⟨1, 1, [⟨0, 0, 0⟩]⟩ (by decide) (by decide)
  have h0 := claim8_argument_checks "png" "png" "png" [] [112, 119]
    ⟨1, 1, [⟨0, 0, 0⟩]⟩ (by decide) (by decide)
  have hp := claim8_argument_checks "png" "png" "png" [104, 105] []
    ⟨1, 1, [⟨0, 0, 0⟩]⟩ (by decide) (by decide)
  exact ⟨h0.1 rfl, hp.2.1 (by decide) rfl, hp.2.2.1 rfl,
    (h.2.2.2 (by decide) (by decide)).2.2⟩

/-! ## Claim C9 -/

set_option maxRecDepth 100000 in
/-- Claim C9 counterexample: the passphrases "pw" (bytes 112 119) and
"fa" (bytes 102 97) are distinct, but their SHA-256 digests share the
first byte (48), so decoding the frame of the one-byte message "A"
produced with "pw" using the WRONG passphrase "fa" silently returns
exactly "A". -/
theorem claim9_counterexample :
    ([112, 119] : List Nat) ≠ [102, 97] ∧
    revealDecode (b64encode (xorCipher [65] [112, 119])) [102, 97] = .ok [65] := by
  refine ⟨by decide, ?_⟩
  rfl

/-- Claim C9 (amended). Decoding a frame produced with passphrase `p1`
using passphrase `p2` does not return the original message whenever the
two SHA-256 keystreams differ at some byte position below the message
length: the result is then either a decode failure or a byte string
different from the message. When the keystream prefixes coincide (which
distinct passphrases can produce, as `claim9_counterexample` shows),
the original message IS returned. -/
theorem claim9_wrong_pwd_amended (m p1 p2 : List Nat)
    (hbytes : ∀ b ∈ m, b < 256)
    (hdiff : ∃ i, i < m.length ∧
      (sha256 p1).getD (i % 32) 0 ≠ (sha256 p2).getD (i % 32) 0) :
    revealDecode (b64encode (xorCipher m p1)) p2 ≠ .ok m := by
  obtain ⟨i, hi, hd⟩ := hdiff
  rw [revealDecode, b64decode_b64encode _ (xorCipher_byte_lt m p1 hbytes)]
  show (if utf8Valid (xorCipher (xorCipher m p1) p2) then
      Except.ok (xorCipher (xorCipher m p1) p2)
    else Except.error StegoError.decryptionFailed) ≠ Except.ok m
  split
  · intro hcon
    have heq := Except.ok.inj hcon
    have hgd := congrArg (fun l => l.getD i 0) heq
    simp only at hgd
    rw [xorCipher_getD _ p2 i (by rw [xorCipher_length]; exact hi),
      xorCipher_getD m p1 i hi] at hgd
    apply hd
    have h1 : m.getD i 0 ^^^
        ((sha256 p1).getD (i % 32) 0 ^^^ (sha256 p2).getD (i % 32) 0) =
        m.getD i 0 := by
      rw [← Nat.xor_assoc]
      exact hgd
    have h2 := congrArg (fun y => m.getD i 0 ^^^ y) h1
    simp only at h2
    rw [← Nat.xor_assoc, Nat.xor_self, Nat.zero_xor] at h2
    have h4 := congrArg (fun y => y ^^^ (sha256 p2).getD (i % 32) 0) h2
    simp only at h4
    rw [Nat.xor_assoc, Nat.xor_self, Nat.xor_zero, Nat.zero_xor] at h4
    exact h4
  · intro hcon
    exact absurd hcon (by simp)

set_option maxRecDepth 100000 in
/-- Claim C9 witness: "pw" and "pq" have digests differing already in
byte 0, so the frame of "A" made with "pw" does not decode to "A"
under "pq". -/
theorem claim9_wrong_pwd_witness :
    revealDecode (b64encode (xorCipher [65] [112, 119])) [112, 113] ≠ .ok [65] :=
  claim9_wrong_pwd_amended [65] [112, 119] [112, 113] (by decide)
    ⟨0, by decide, by decide⟩

/-! ## Claim C10 -/

/-- Claim C10. A successful `hide_msg` always saves with image format
"PNG", whatever the requested output extension: an extension outside
png, jpg, jpeg, bmp, webp is renamed to png, while one of jpg, jpeg,
bmp, webp is kept as the file name even though the data written is
PNG-encoded. -/
theorem claim10_png_always (inExt outExt : String) (msg pwd : List Nat) (img : Img)
    (out : SavedImage) (hok : hide_msg inExt outExt msg pwd img = .ok out) :
    out.format = "PNG" ∧
    (outExt ∈ IMAGE_EXTS → out.ext = outExt) ∧
    (outExt ∉ IMAGE_EXTS → out.ext = "png") := by
  have h := hide_msg_ok_inv inExt outExt msg pwd img out hok
  subst h
  refine ⟨rfl, fun hm => ?_, fun hm => ?_⟩
  · simp [hm]
  · simp [hm]

/-- Claim C10 witness: hiding into an output path with extension "gif"
(not an allowed image extension) produces extension "png" and format
"PNG"; with extension "jpg" the name survives but the format is still
"PNG". -/
theorem claim10_png_witness :
    (∃ out, hide_msg "png" "gif" [104, 105] [112, 119]
        ⟨4, 4, List.replicate 16 ⟨0, 0, 0⟩⟩ = .ok out ∧
      out.format = "PNG" ∧ out.ext = "png") ∧
    (∃ out, hide_msg "png" "jpg" [104, 105] [112, 119]
        ⟨4, 4, List.replicate 16 ⟨0, 0, 0⟩⟩ = .ok out ∧
      out.format = "PNG" ∧ out.ext = "jpg") := by
  constructor
  · have hok := hide_msg_ok "png" "gif" [104, 105] [112, 119]
      ⟨4, 4, List.replicate 16 ⟨0, 0, 0⟩⟩ (by decide) (by decide) (by decide) (by decide)
    exact ⟨_, hok, (claim10_png_always _ _ _ _ _ _ hok).1,
      (claim10_png_always _ _ _ _ _ _ hok).2.2 (by decide)⟩
  · have hok := hide_msg_ok "png" "jpg" [104, 105] [112, 119]
      ⟨4, 4, List.replicate 16 ⟨0, 0, 0⟩⟩ (by decide) (by decide) (by decide) (by decide)
    exact ⟨_, hok, (claim10_png_always _ _ _ _ _ _ hok).1,
      (claim10_png_always _ _ _ _ _ _ hok).2.1 (by decide)⟩

end OmniCon
